import Mathlib

/-!
Verification of the RT-Thread `memheap.c` boundary-tag pool allocator.

The pool is embedded shallowly: the physical, address-ordered block list is a
`List Blk` of contiguous blocks (USED bit of the magic word plus the payload
size `MEMITEM_SIZE`, i.e. `next - this - RT_MEMHEAP_SIZE`); block header
addresses are byte offsets from `start_addr`, recovered as prefix sums, so
invariant I3 (the physical chain tiles the pool) holds by construction.  The
free list is the list of header addresses in `next_free` order starting from
the sentinel embedded in the descriptor.  The circular conventions of the C
lists are represented by list adjacency: the `prev` of the first block and the
`next` of the zero-payload tailer are the tailer resp. the first block, which
the code only uses to suppress coalescing at the pool ends — in the embedding
the first block simply has no left neighbour and the tailer, kept as the last
list entry with `used = true`, bounds right coalescing exactly as in the code.

`RT_ALIGN_SIZE` and `RT_MEMHEAP_SIZE` are compile-time platform parameters and
are threaded through as `A` and `H`.  Machine arithmetic is `Nat`; the places
where the C `rt_size_t`/`rt_ubase_t` arithmetic can actually wrap are modelled
explicitly (`rt_calloc`'s `count * size` is reduced mod `2 ^ w`).

Byte contents of the region are a `Mem := Nat → Nat` component.  Header-field
stores are modelled conservatively as clobbering the whole `H`-byte header
region of every (pre- and post-operation) block — a superset of the bytes the
C code writes, all of which land inside block headers (free-list sentinel
fields live in the descriptor, outside the region).  Payload bytes are written
only by `rt_memcpy` / `rt_memset`, exactly where the code calls them.

Operations guarded in the C code by fatal `RT_ASSERT`s (freeing a pointer
whose header lacks `RT_MEMHEAP_MAGIC|USED`, operating on the tailer sentinel,
which is never handed to a client) are modelled as no-ops: the assertion halts
the system, so no post-state is observable.
-/

namespace Memheap

/-- One block of the physical block list: the USED bit of the magic word and
the payload size `MEMITEM_SIZE(b) = (ubase)b.next - (ubase)b - RT_MEMHEAP_SIZE`.
Blocks are contiguous, so the payload size determines the `next` pointer. -/
structure Blk where
  used : Bool
  size : Nat
deriving Repr, DecidableEq

/-- Byte contents of the managed region, indexed by offset from `start_addr`. -/
def Mem : Type := Nat → Nat

/-- The pool descriptor `struct rt_memheap` together with the managed region:
physical block list (tailer included, last), free list as the header addresses
in `next_free` order from the sentinel, the counters, and the region bytes. -/
structure Heap where
  blocks : List Blk
  freeList : List Nat
  available : Nat
  maxUsed : Nat
  poolSize : Nat
  mem : Mem

/-- `RT_MEMHEAP_MINIALLOC` -/
def RT_MEMHEAP_MINIALLOC : Nat := 12

/-- `RT_ALIGN(size, align)`: round up to a multiple of `align` (for the
power-of-two `align` used by the macro this division form is the mask form). -/
def RT_ALIGN (n align : Nat) : Nat := ((n + align - 1) / align) * align

/-- `RT_ALIGN_DOWN(size, align)`: round down to a multiple of `align`. -/
def RT_ALIGN_DOWN (n align : Nat) : Nat := (n / align) * align

/-- Request normalisation done by `rt_memheap_alloc` / `rt_memheap_realloc`:
`size = RT_ALIGN(size, RT_ALIGN_SIZE); if (size < RT_MEMHEAP_MINIALLOC) size = RT_MEMHEAP_MINIALLOC;` -/
def normSize (A n : Nat) : Nat := max (RT_ALIGN n A) RT_MEMHEAP_MINIALLOC

/-- Bytes occupied by one block: header (`RT_MEMHEAP_SIZE = H`) plus payload. -/
def blkBytes (H : Nat) (b : Blk) : Nat := H + b.size

/-- Total bytes occupied by a list of blocks. -/
def sizeOfBlocks (H : Nat) (l : List Blk) : Nat := (l.map (blkBytes H)).sum

/-- The block list annotated with header addresses (offsets from `start_addr`),
starting at `base`. -/
def withAddrs (H : Nat) : List Blk → Nat → List (Nat × Blk)
  | [], _ => []
  | b :: rest, base => (base, b) :: withAddrs H rest (base + blkBytes H b)

/-- Index of the block whose header address is `a` (offset from the start). -/
def idxOfAddr (H : Nat) : List Blk → Nat → Option Nat
  | [], _ => none
  | b :: rest, a =>
    if a = 0 then some 0
    else if a < blkBytes H b then none
    else (idxOfAddr H rest (a - blkBytes H b)).map (· + 1)

/-- Block at index `i` (the default is never reached on guarded paths). -/
def getBlk (l : List Blk) (i : Nat) : Blk := l.getD i ⟨true, 0⟩

/-- `MEMITEM_SIZE(item)` for the block whose header address is `a`. -/
def MEMITEM_SIZE (H : Nat) (l : List Blk) (a : Nat) : Nat :=
  match idxOfAddr H l a with
  | some i => (getBlk l i).size
  | none => 0

/-- Sum of the payload sizes of the FREE blocks (spec invariant I6 compares
`available_size` with this). -/
def freeSum (l : List Blk) : Nat := (l.map (fun b => if b.used then 0 else b.size)).sum

/-- Whether offset `x` lies inside the `H`-byte header of some block. -/
def isHeaderByte (H : Nat) (l : List Blk) (x : Nat) : Bool :=
  (withAddrs H l 0).any (fun pr => decide (pr.1 ≤ x) && decide (x < pr.1 + H))

/-- Conservative model of the header-field stores an operation performs: every
byte inside a block header is clobbered.  All stores of the C allocator except
`rt_memcpy`/`rt_memset` target header fields of pool blocks (or descriptor
fields outside the region). -/
def clobberHeaders (H : Nat) (l : List Blk) (m : Mem) : Mem :=
  fun x => if isHeaderByte H l x then 0 else m x

/-- `rt_memcpy(dst, src, len)` on the region bytes. -/
def copyRange (dst src len : Nat) (m : Mem) : Mem :=
  fun x => if dst ≤ x ∧ x < dst + len then m (src + (x - dst)) else m x

/-- `rt_memset(lo, 0, len)` on the region bytes. -/
def zeroRange (lo len : Nat) (m : Mem) : Mem :=
  fun x => if lo ≤ x ∧ x < lo + len then 0 else m x

/-- Header-clobbering effect of one list-surgery step: the headers of the
blocks present before (`pre`) or after (`post`) the step are written. -/
def clobberStep (H : Nat) (pre post : List Blk) (m : Mem) : Mem :=
  clobberHeaders H post (clobberHeaders H pre m)

/-- `rt_memheap_init(memheap, name, start_addr, size)` over a region whose
previous byte contents are `m0`.  Builds one big FREE block at offset 0 and
the zero-payload USED tailer, puts the big block on the free list, and sets
`pool_size = RT_ALIGN_DOWN(size, RT_ALIGN_SIZE)`,
`available_size = pool_size - 2 * RT_MEMHEAP_SIZE`,
`max_used_size = pool_size - available_size`. -/
def rt_memheap_init (A H S : Nat) (m0 : Mem) : Heap :=
  let pool := RT_ALIGN_DOWN S A
  let avail := pool - 2 * H
  let bs : List Blk := [⟨false, avail⟩, ⟨true, 0⟩]
  { blocks := bs
    freeList := [0]
    available := avail
    maxUsed := pool - avail
    poolSize := pool
    mem := clobberHeaders H bs m0 }

/-- `rt_memheap_alloc(heap, size)`.  Returns the payload pointer (offset) or
`none` for `RT_NULL`.  The first-fit scan walks the free list in `next_free`
order; on a hit the block is split when `free_size >= size + RT_MEMHEAP_SIZE +
RT_MEMHEAP_MINIALLOC`, otherwise consumed whole; `available_size` and
`max_used_size` are updated as in the source. -/
def rt_memheap_alloc (A H : Nat) (h : Heap) (size0 : Nat) : Heap × Option Nat :=
  let size := normSize A size0
  if size < h.available then
    match h.freeList.find? (fun a => decide (size ≤ MEMITEM_SIZE H h.blocks a)) with
    | none => (h, none)
    | some a =>
      match idxOfAddr H h.blocks a with
      | none => (h, none)
      | some i =>
        let free_size := (getBlk h.blocks i).size
        if size + H + RT_MEMHEAP_MINIALLOC ≤ free_size then
          let blocks' := h.blocks.take i ++ [⟨true, size⟩, ⟨false, free_size - size - H⟩]
                          ++ h.blocks.drop (i + 1)
          let avail' := h.available - size - H
          ({ blocks := blocks'
             freeList := (a + size + H) :: h.freeList.erase a
             available := avail'
             maxUsed := max h.maxUsed (h.poolSize - avail')
             poolSize := h.poolSize
             mem := clobberStep H h.blocks blocks' h.mem }, some (a + H))
        else
          let blocks' := h.blocks.take i ++ [⟨true, free_size⟩] ++ h.blocks.drop (i + 1)
          let avail' := h.available - free_size
          ({ blocks := blocks'
             freeList := h.freeList.erase a
             available := avail'
             maxUsed := max h.maxUsed (h.poolSize - avail')
             poolSize := h.poolSize
             mem := clobberStep H h.blocks blocks' h.mem }, some (a + H))
  else (h, none)

/-- `rt_memheap_free(ptr)`.  `ptr = 0` encodes `RT_NULL` (payload pointers are
always `≥ H > 0`).  The magic assertion (`MAGIC|USED`) and the tailer sentinel
(never a client pointer) are modelled as no-op guards.  Marks the block FREE,
adds its payload to `available_size`, then eagerly coalesces with a FREE left
neighbour (reclaiming a header, not re-inserting) and a FREE right neighbour
(reclaiming a header and unlinking the neighbour from the free list), and
finally inserts at the free-list head when no left merge happened. -/
def rt_memheap_free (A H : Nat) (h : Heap) (p : Nat) : Heap :=
  if p < H then h
  else
    match idxOfAddr H h.blocks (p - H) with
    | none => h
    | some i =>
      let b := getBlk h.blocks i
      if b.used = true ∧ i + 1 < h.blocks.length then
        let s := b.size
        if 0 < i ∧ (getBlk h.blocks (i - 1)).used = false then
          let q := (getBlk h.blocks (i - 1)).size
          if (getBlk h.blocks (i + 1)).used = false then
            let f := (getBlk h.blocks (i + 1)).size
            let blocks' := h.blocks.take (i - 1) ++ [⟨false, q + H + s + H + f⟩]
                            ++ h.blocks.drop (i + 2)
            { h with
              blocks := blocks'
              freeList := h.freeList.erase (p + s)
              available := h.available + s + H + H
              mem := clobberStep H h.blocks blocks' h.mem }
          else
            let blocks' := h.blocks.take (i - 1) ++ [⟨false, q + H + s⟩]
                            ++ h.blocks.drop (i + 1)
            { h with
              blocks := blocks'
              freeList := h.freeList
              available := h.available + s + H
              mem := clobberStep H h.blocks blocks' h.mem }
        else
          if (getBlk h.blocks (i + 1)).used = false then
            let f := (getBlk h.blocks (i + 1)).size
            let blocks' := h.blocks.take i ++ [⟨false, s + H + f⟩] ++ h.blocks.drop (i + 2)
            { h with
              blocks := blocks'
              freeList := (p - H) :: h.freeList.erase (p + s)
              available := h.available + s + H
              mem := clobberStep H h.blocks blocks' h.mem }
          else
            let blocks' := h.blocks.take i ++ [⟨false, s⟩] ++ h.blocks.drop (i + 1)
            { h with
              blocks := blocks'
              freeList := (p - H) :: h.freeList
              available := h.available + s
              mem := clobberStep H h.blocks blocks' h.mem }
      else h

/-- `rt_memheap_realloc(heap, ptr, newsize)`.  `newsize = 0` frees; `ptr =
RT_NULL` (encoded 0) allocates the already-normalised size; otherwise grow
in place when the physical successor is FREE and `nextsize + oldsize >
newsize + RT_MEMHEAP_MINIALLOC`, fall back to allocate–copy–free, or shrink,
splitting only when `newsize + RT_MEMHEAP_SIZE + RT_MEMHEAP_MINIALLOC <
oldsize` and right-coalescing the split-off block.  Invalid client pointers
(no block header, not USED, or the tailer, which the source guards with
`RT_ASSERT(next_ptr > header_ptr)`) are modelled as no-ops. -/
def rt_memheap_realloc (A H : Nat) (h : Heap) (p size0 : Nat) : Heap × Option Nat :=
  if size0 = 0 then (rt_memheap_free A H h p, none)
  else
    let newsize := normSize A size0
    if p = 0 then rt_memheap_alloc A H h newsize
    else if p < H then (h, none)
    else
      match idxOfAddr H h.blocks (p - H) with
      | none => (h, none)
      | some i =>
        if (getBlk h.blocks i).used = true ∧ i + 1 < h.blocks.length then
          let oldsize := (getBlk h.blocks i).size
          if oldsize < newsize then
            let nb := getBlk h.blocks (i + 1)
            if nb.used = false ∧ newsize + RT_MEMHEAP_MINIALLOC < nb.size + oldsize then
              let blocks' := h.blocks.take i
                              ++ [⟨true, newsize⟩, ⟨false, oldsize + nb.size - newsize⟩]
                              ++ h.blocks.drop (i + 2)
              let avail' := h.available - (newsize - oldsize)
              ({ blocks := blocks'
                 freeList := (p + newsize) :: h.freeList.erase (p + oldsize)
                 available := avail'
                 maxUsed := max h.maxUsed (h.poolSize - avail')
                 poolSize := h.poolSize
                 mem := clobberStep H h.blocks blocks' h.mem }, some p)
            else
              match rt_memheap_alloc A H h newsize with
              | (h1, some q) =>
                let h2 := { h1 with mem := copyRange q p (min oldsize newsize) h1.mem }
                (rt_memheap_free A H h2 p, some q)
              | (h1, none) => (h1, none)
          else
            if oldsize ≤ newsize + H + RT_MEMHEAP_MINIALLOC then (h, some p)
            else
              let nb := getBlk h.blocks (i + 1)
              if nb.used = false then
                let blocks' := h.blocks.take i
                                ++ [⟨true, newsize⟩, ⟨false, oldsize - newsize + nb.size⟩]
                                ++ h.blocks.drop (i + 2)
                ({ blocks := blocks'
                   freeList := (p + newsize) :: h.freeList.erase (p + oldsize)
                   available := h.available - nb.size + (oldsize - newsize + nb.size)
                   maxUsed := h.maxUsed
                   poolSize := h.poolSize
                   mem := clobberStep H h.blocks blocks' h.mem }, some p)
              else
                let blocks' := h.blocks.take i
                                ++ [⟨true, newsize⟩, ⟨false, oldsize - newsize - H⟩]
                                ++ h.blocks.drop (i + 1)
                ({ blocks := blocks'
                   freeList := (p + newsize) :: h.freeList
                   available := h.available + (oldsize - newsize - H)
                   maxUsed := h.maxUsed
                   poolSize := h.poolSize
                   mem := clobberStep H h.blocks blocks' h.mem }, some p)
        else (h, none)

/-- `rt_malloc(size)` of the `RT_USING_MEMHEAP_AS_HEAP` facade, restricted to
a system with the default pool only (the registry loop over further pools is
then empty). -/
def rt_malloc (A H : Nat) (h : Heap) (size : Nat) : Heap × Option Nat :=
  rt_memheap_alloc A H h size

/-- `rt_calloc(count, size)`: `total_size = count * size` in `w`-bit
`rt_size_t` arithmetic (no overflow check in the source), then `rt_malloc`
and `rt_memset(ptr, 0, total_size)` on success. -/
def rt_calloc (A H w : Nat) (h : Heap) (count size : Nat) : Heap × Option Nat :=
  let total_size := (count * size) % 2 ^ w
  match rt_malloc A H h total_size with
  | (h1, some ptr) => ({ h1 with mem := zeroRange ptr total_size h1.mem }, some ptr)
  | (h1, none) => (h1, none)

/-- One client operation on the pool. -/
inductive HeapOp where
  | alloc (sz : Nat)
  | free (p : Nat)
  | realloc (p : Nat) (sz : Nat)
deriving Repr, DecidableEq

/-- Apply one operation, dropping the returned pointer. -/
def applyOp (A H : Nat) (h : Heap) : HeapOp → Heap
  | .alloc sz => (rt_memheap_alloc A H h sz).1
  | .free p => rt_memheap_free A H h p
  | .realloc p sz => (rt_memheap_realloc A H h p sz).1

/-- Run a sequence of client operations. -/
def runOps (A H : Nat) (h : Heap) (ops : List HeapOp) : Heap :=
  ops.foldl (applyOp A H) h

/-- Spec invariant I5 / property P2: no two physically adjacent blocks are
both FREE. -/
def noAdjacentFree (l : List Blk) : Prop :=
  List.Chain' (fun x y => x.used = true ∨ y.used = true) l

/-- Well-formedness of a pool state, as maintained between operations by the
source (spec invariants I2–I7 in the embedded representation), together with
the compile-time configuration constraints (`0 < A`, `0 < H = RT_MEMHEAP_SIZE
= RT_ALIGN(sizeof item, A)`, so `A ∣ H`).  The components:
configuration; the block list is nonempty and ends with the USED tailer;
no two adjacent FREE blocks (I5); `available_size` equals the total FREE
payload (I6); the free list has no duplicates and contains exactly the header
addresses of the FREE blocks (I4); every payload size is a multiple of
`gcd A RT_MEMHEAP_MINIALLOC` (the alignment residue actually maintained by
the code; when `A ∣ 12` this gives I7). -/
def Wf (A H : Nat) (h : Heap) : Prop :=
  0 < A ∧ 0 < H ∧ A ∣ H ∧
  h.blocks ≠ [] ∧
  h.blocks.getLast?.all (·.used) = true ∧
  noAdjacentFree h.blocks ∧
  h.available = freeSum h.blocks ∧
  h.freeList.Nodup ∧
  (∀ a ∈ h.freeList, ∃ pr ∈ withAddrs H h.blocks 0, pr.1 = a ∧ pr.2.used = false) ∧
  (∀ pr ∈ withAddrs H h.blocks 0, pr.2.used = false → pr.1 ∈ h.freeList) ∧
  (∀ b ∈ h.blocks, Nat.gcd A RT_MEMHEAP_MINIALLOC ∣ b.size)

/-- Header addresses of the FREE blocks of `l`, when `l` starts at `base`. -/
def freeAddrsFrom (H : Nat) (l : List Blk) (base : Nat) : List Nat :=
  (withAddrs H l base).filterMap (fun pr => if pr.2.used then none else some pr.1)

/-! Basic facts about block sums, addresses and list surgery. -/

theorem sizeOfBlocks_nil (H : Nat) : sizeOfBlocks H [] = 0 := rfl

theorem sizeOfBlocks_cons (H : Nat) (b : Blk) (l : List Blk) :
    sizeOfBlocks H (b :: l) = blkBytes H b + sizeOfBlocks H l := by
  simp [sizeOfBlocks]

theorem sizeOfBlocks_append (H : Nat) (l1 l2 : List Blk) :
    sizeOfBlocks H (l1 ++ l2) = sizeOfBlocks H l1 + sizeOfBlocks H l2 := by
  simp [sizeOfBlocks]

theorem freeSum_nil : freeSum [] = 0 := rfl

theorem freeSum_cons (b : Blk) (l : List Blk) :
    freeSum (b :: l) = (if b.used then 0 else b.size) + freeSum l := by
  simp [freeSum]

theorem freeSum_append (l1 l2 : List Blk) :
    freeSum (l1 ++ l2) = freeSum l1 + freeSum l2 := by
  simp [freeSum]

theorem withAddrs_append (H : Nat) (l1 l2 : List Blk) (base : Nat) :
    withAddrs H (l1 ++ l2) base =
      withAddrs H l1 base ++ withAddrs H l2 (base + sizeOfBlocks H l1) := by
  induction l1 generalizing base with
  | nil => simp [withAddrs, sizeOfBlocks_nil]
  | cons b rest ih =>
    simp [withAddrs, ih, sizeOfBlocks_cons, Nat.add_assoc]

theorem withAddrs_base_le {H : Nat} {l : List Blk} {base : Nat} {pr : Nat × Blk}
    (hmem : pr ∈ withAddrs H l base) : base ≤ pr.1 := by
  induction l generalizing base with
  | nil => simp [withAddrs] at hmem
  | cons b rest ih =>
    simp only [withAddrs, List.mem_cons] at hmem
    rcases hmem with h | h
    · subst h; exact Nat.le_refl _
    · exact Nat.le_trans (Nat.le_add_right _ _) (ih h)

theorem mem_withAddrs {H : Nat} {l : List Blk} {base a : Nat} {b : Blk} :
    (a, b) ∈ withAddrs H l base ↔
      ∃ L1 L2, l = L1 ++ b :: L2 ∧ a = base + sizeOfBlocks H L1 := by
  induction l generalizing base with
  | nil =>
    simp only [withAddrs, List.not_mem_nil, false_iff]
    rintro ⟨L1, L2, hl, -⟩
    exact (List.append_ne_nil_of_right_ne_nil L1 (List.cons_ne_nil b L2)) hl.symm
  | cons c rest ih =>
    simp only [withAddrs, List.mem_cons, Prod.mk.injEq]
    constructor
    · rintro (⟨ha, hb⟩ | h)
      · exact ⟨[], rest, by rw [hb]; rfl, by simp [ha, sizeOfBlocks_nil]⟩
      · obtain ⟨L1, L2, hl, ha⟩ := ih.mp h
        exact ⟨c :: L1, L2, by rw [hl]; rfl, by
          simp [sizeOfBlocks_cons, ha, Nat.add_assoc]⟩
    · rintro ⟨L1, L2, hl, ha⟩
      cases L1 with
      | nil =>
        simp only [List.nil_append, List.cons.injEq] at hl
        exact Or.inl ⟨by simp [ha, sizeOfBlocks_nil], hl.1.symm⟩
      | cons c' L1' =>
        simp only [List.cons_append, List.cons.injEq] at hl
        refine Or.inr (ih.mpr ⟨L1', L2, hl.2, ?_⟩)
        rw [ha, hl.1, sizeOfBlocks_cons]
        omega

theorem idxOfAddr_cons (H : Nat) (c : Blk) (l : List Blk) (a : Nat) :
    idxOfAddr H (c :: l) a =
      if a = 0 then some 0
      else if a < blkBytes H c then none
      else (idxOfAddr H l (a - blkBytes H c)).map (· + 1) := rfl

theorem idxOfAddr_decomp (H : Nat) (L1 L2 : List Blk) (b : Blk) (hH : 0 < H) :
    idxOfAddr H (L1 ++ b :: L2) (sizeOfBlocks H L1) = some L1.length := by
  induction L1 with
  | nil => simp [idxOfAddr, sizeOfBlocks_nil]
  | cons c rest ih =>
    have hbb : blkBytes H c = H + c.size := rfl
    rw [List.cons_append, sizeOfBlocks_cons, idxOfAddr_cons,
      if_neg (by omega), if_neg (by omega), Nat.add_sub_cancel_left, ih]
    rfl

theorem idxOfAddr_some {H : Nat} {l : List Blk} {a i : Nat}
    (h : idxOfAddr H l a = some i) :
    ∃ L1 b L2, l = L1 ++ b :: L2 ∧ L1.length = i ∧ sizeOfBlocks H L1 = a := by
  induction l generalizing a i with
  | nil => simp [idxOfAddr] at h
  | cons c rest ih =>
    by_cases ha : a = 0
    · subst ha
      rw [idxOfAddr_cons, if_pos rfl] at h
      simp only [Option.some.injEq] at h
      exact ⟨[], c, rest, rfl, h, rfl⟩
    · by_cases hlt : a < blkBytes H c
      · rw [idxOfAddr_cons, if_neg ha, if_pos hlt] at h
        simp at h
      · rw [idxOfAddr_cons, if_neg ha, if_neg hlt] at h
        cases hrec : idxOfAddr H rest (a - blkBytes H c) with
        | none => rw [hrec] at h; simp at h
        | some j =>
          rw [hrec] at h
          simp only [Option.map_some', Option.some.injEq] at h
          obtain ⟨L1, b, L2, hl, hlen, hsz⟩ := ih hrec
          refine ⟨c :: L1, b, L2, by rw [hl]; rfl, by simp [hlen, h], ?_⟩
          rw [sizeOfBlocks_cons, hsz]
          omega

theorem getBlk_decomp (L1 L2 : List Blk) (b : Blk) :
    getBlk (L1 ++ b :: L2) L1.length = b := by
  induction L1 with
  | nil => rfl
  | cons c rest ih =>
    simp only [List.cons_append, List.length_cons, getBlk, List.getD_cons_succ]
    exact ih

theorem take_decomp (L1 L2 : List Blk) (b : Blk) :
    (L1 ++ b :: L2).take L1.length = L1 := by
  induction L1 with
  | nil => rfl
  | cons c rest ih => simp only [List.cons_append, List.length_cons, List.take_succ_cons, ih]

theorem drop_decomp (L1 L2 : List Blk) (b : Blk) :
    (L1 ++ b :: L2).drop (L1.length + 1) = L2 := by
  induction L1 with
  | nil => rfl
  | cons c rest ih => simpa using ih

theorem drop_decomp2 (L1 L2 : List Blk) (b d : Blk) :
    (L1 ++ b :: d :: L2).drop (L1.length + 2) = L2 := by
  induction L1 with
  | nil => rfl
  | cons c rest ih => simpa using ih

theorem withAddrs_inj {H : Nat} (hH : 0 < H) {l : List Blk} {base a : Nat} {b1 b2 : Blk}
    (h1 : (a, b1) ∈ withAddrs H l base) (h2 : (a, b2) ∈ withAddrs H l base) :
    b1 = b2 := by
  induction l generalizing base with
  | nil => simp [withAddrs] at h1
  | cons c rest ih =>
    have hbb : blkBytes H c = H + c.size := rfl
    simp only [withAddrs, List.mem_cons, Prod.mk.injEq] at h1 h2
    rcases h1 with ⟨ha1, hb1⟩ | h1
    · rcases h2 with ⟨ha2, hb2⟩ | h2
      · rw [hb1, hb2]
      · exfalso
        have := withAddrs_base_le h2
        simp only at this
        omega
    · rcases h2 with ⟨ha2, hb2⟩ | h2
      · exfalso
        have := withAddrs_base_le h1
        simp only at this
        omega
      · exact ih h1 h2

theorem withAddrs_no_overlap {H : Nat} (hH : 0 < H) {l : List Blk} {base a a' : Nat}
    {b b' : Blk} (h1 : (a, b) ∈ withAddrs H l base) (h2 : (a', b') ∈ withAddrs H l base)
    (hlt : a < a') : a + blkBytes H b ≤ a' := by
  induction l generalizing base with
  | nil => simp [withAddrs] at h1
  | cons c rest ih =>
    have hbb : blkBytes H c = H + c.size := rfl
    simp only [withAddrs, List.mem_cons, Prod.mk.injEq] at h1 h2
    rcases h1 with ⟨ha1, hb1⟩ | h1
    · rcases h2 with ⟨ha2, hb2⟩ | h2
      · omega
      · have := withAddrs_base_le h2
        simp only at this
        rw [hb1]
        omega
    · rcases h2 with ⟨ha2, hb2⟩ | h2
      · have := withAddrs_base_le h1
        simp only at this
        omega
      · exact ih h1 h2

theorem withAddrs_fresh {H : Nat} (hH : 0 < H) {l : List Blk} {a y : Nat} {b : Blk}
    (hmem : (a, b) ∈ withAddrs H l 0) (h1 : a < y) (h2 : y < a + blkBytes H b)
    (b' : Blk) : (y, b') ∉ withAddrs H l 0 := by
  intro hy
  have := withAddrs_no_overlap hH hmem hy h1
  omega

theorem withAddrs_before {H : Nat} {l : List Blk} {base : Nat} {pr : Nat × Blk}
    (hmem : pr ∈ withAddrs H l base) :
    pr.1 + blkBytes H pr.2 ≤ base + sizeOfBlocks H l := by
  induction l generalizing base with
  | nil => simp [withAddrs] at hmem
  | cons b rest ih =>
    simp only [withAddrs, List.mem_cons] at hmem
    rw [sizeOfBlocks_cons]
    rcases hmem with h | h
    · subst h; dsimp only; omega
    · have := ih h
      omega

theorem mem_freeAddrsFrom {H : Nat} {l : List Blk} {base x : Nat} :
    x ∈ freeAddrsFrom H l base ↔
      ∃ b : Blk, (x, b) ∈ withAddrs H l base ∧ b.used = false := by
  unfold freeAddrsFrom
  rw [List.mem_filterMap]
  constructor
  · rintro ⟨⟨a, b⟩, hmem, hf⟩
    by_cases hb : b.used
    · simp [hb] at hf
    · simp only [hb, if_neg, Bool.false_eq_true, ite_false, Option.some.injEq] at hf
      exact ⟨b, by rw [hf] at hmem; exact hmem, by simp [hb]⟩
  · rintro ⟨b, hmem, hb⟩
    exact ⟨(x, b), hmem, by simp [hb]⟩

theorem freeAddrsFrom_bounds {H : Nat} (hH : 0 < H) {l : List Blk} {base x : Nat}
    (hx : x ∈ freeAddrsFrom H l base) :
    base ≤ x ∧ x < base + sizeOfBlocks H l := by
  obtain ⟨b, hmem, -⟩ := mem_freeAddrsFrom.mp hx
  have h1 := withAddrs_base_le hmem
  have h2 := withAddrs_before hmem
  simp only at h1 h2
  have : blkBytes H b = H + b.size := rfl
  omega

theorem freeAddrsFrom_nil (H base : Nat) : freeAddrsFrom H [] base = [] := rfl

theorem withAddrs_cons (H : Nat) (b : Blk) (l : List Blk) (base : Nat) :
    withAddrs H (b :: l) base = (base, b) :: withAddrs H l (base + blkBytes H b) := rfl

theorem freeAddrsFrom_cons (H : Nat) (b : Blk) (l : List Blk) (base : Nat) :
    freeAddrsFrom H (b :: l) base =
      (if b.used then [] else [base]) ++ freeAddrsFrom H l (base + blkBytes H b) := by
  unfold freeAddrsFrom
  rw [withAddrs_cons, List.filterMap_cons]
  by_cases hb : b.used <;> simp [hb, freeAddrsFrom]

theorem getLast_all_append {P : Blk → Bool} (L M : List Blk) (h : M ≠ []) :
    ((L ++ M).getLast?.all P) = (M.getLast?.all P) := by
  rw [List.getLast?_append_of_ne_nil L h]

/-- The last block (the tailer) is USED, so a FREE block in a decomposition is
never last. -/
theorem free_not_last {L1 L2 : List Blk} {b : Blk}
    (hlast : ((L1 ++ b :: L2).getLast?.all (·.used)) = true)
    (hb : b.used = false) : L2 ≠ [] := by
  intro h
  subst h
  have : L1 ++ [b] = L1 ++ [b] := rfl
  rw [getLast_all_append L1 [b] (by simp)] at hlast
  simp [List.getLast?] at hlast
  rw [hlast] at hb
  cases hb

/-- A member of the free list whose address falls strictly inside the extent
of a block is impossible; used to show that freshly created header addresses
are not already on the free list. -/
theorem not_mem_freeList_of_inside {H : Nat} {h : Heap} (hH : 0 < H)
    (h4a : ∀ a ∈ h.freeList, ∃ pr ∈ withAddrs H h.blocks 0, pr.1 = a ∧ pr.2.used = false)
    {a y : Nat} {b : Blk} (hmem : (a, b) ∈ withAddrs H h.blocks 0)
    (h1 : a < y) (h2 : y < a + blkBytes H b) : y ∉ h.freeList := by
  intro hy
  obtain ⟨⟨x, bx⟩, hpr, hx, -⟩ := h4a y hy
  simp only at hx
  subst hx
  exact withAddrs_fresh hH hmem h1 h2 bx hpr

/-- The header address of a USED block is never on the free list. -/
theorem not_mem_freeList_of_used {H : Nat} {h : Heap} (hH : 0 < H)
    (h4a : ∀ a ∈ h.freeList, ∃ pr ∈ withAddrs H h.blocks 0, pr.1 = a ∧ pr.2.used = false)
    {a : Nat} {b : Blk} (hmem : (a, b) ∈ withAddrs H h.blocks 0)
    (hb : b.used = true) : a ∉ h.freeList := by
  intro ha
  obtain ⟨⟨x, bx⟩, hpr, hx, hfree⟩ := h4a a ha
  simp only at hx hfree
  subst hx
  have := withAddrs_inj hH hpr hmem
  rw [this] at hfree
  rw [hfree] at hb
  cases hb

/-- Master preservation lemma.  Every mutation the allocator performs on the
block list replaces a contiguous nonempty run `mid` by a run `mid'` of the
same total byte size, strictly left of the tailer (`L2 ≠ []`), leaving `L1`
and `L2` untouched; the free list changes exactly by swapping the FREE
addresses contributed by `mid` for those contributed by `mid'`.  Under the
listed side conditions the well-formedness invariant is re-established.
`maxUsed'`, `pool'` and `mem'` are unconstrained by `Wf`. -/
theorem wf_surgery {A H : Nat} {h : Heap} {L1 mid mid' L2 : List Blk} {fl' : List Nat}
    {avail' maxUsed' pool' : Nat} {mem' : Mem}
    (hwf : Wf A H h)
    (hblocks : h.blocks = L1 ++ mid ++ L2)
    (hbytes : sizeOfBlocks H mid' = sizeOfBlocks H mid)
    (hL2 : L2 ≠ [])
    (hmidchain : noAdjacentFree mid')
    (hbound : ∀ x ∈ L1.getLast?, ∀ y ∈ mid'.head?, x.used = true ∨ y.used = true)
    (hL2head : ∀ y ∈ L2.head?, y.used = true)
    (havail : avail' = freeSum L1 + freeSum mid' + freeSum L2)
    (hnd' : fl'.Nodup)
    (hmem' : ∀ x, x ∈ fl' ↔
      ((x ∈ h.freeList ∧ x ∉ freeAddrsFrom H mid (sizeOfBlocks H L1)) ∨
        x ∈ freeAddrsFrom H mid' (sizeOfBlocks H L1)))
    (hdvdmid : ∀ b ∈ mid', Nat.gcd A RT_MEMHEAP_MINIALLOC ∣ b.size) :
    Wf A H (Heap.mk (L1 ++ mid' ++ L2) fl' avail' maxUsed' pool' mem') := by
  obtain ⟨hA, hH, hAH, hne, hlast, hchain, hacc, hnd, h4a, h4b, hdvd⟩ := hwf
  have hwaOld : withAddrs H (L1 ++ mid ++ L2) 0 =
      (withAddrs H L1 0 ++ withAddrs H mid (sizeOfBlocks H L1)) ++
        withAddrs H L2 (sizeOfBlocks H L1 + sizeOfBlocks H mid) := by
    rw [withAddrs_append, withAddrs_append, sizeOfBlocks_append]
    simp [Nat.zero_add]
  have hwaNew : withAddrs H (L1 ++ mid' ++ L2) 0 =
      (withAddrs H L1 0 ++ withAddrs H mid' (sizeOfBlocks H L1)) ++
        withAddrs H L2 (sizeOfBlocks H L1 + sizeOfBlocks H mid) := by
    rw [withAddrs_append, withAddrs_append, sizeOfBlocks_append, hbytes]
    simp [Nat.zero_add]
  unfold Wf
  dsimp only
  refine ⟨hA, hH, hAH, ?_, ?_, ?_, ?_, hnd', ?_, ?_, ?_⟩
  · -- nonempty
    intro hcon
    rcases List.append_eq_nil.mp hcon with ⟨-, h2⟩
    exact hL2 h2
  · -- tailer still last and USED
    rw [getLast_all_append _ _ hL2]
    rw [hblocks, getLast_all_append _ _ hL2] at hlast
    exact hlast
  · -- no two adjacent FREE blocks
    rw [hblocks] at hchain
    unfold noAdjacentFree at hchain hmidchain ⊢
    rw [List.chain'_append, List.chain'_append] at hchain
    rw [List.chain'_append, List.chain'_append]
    obtain ⟨⟨hcL1, -, -⟩, hcL2, -⟩ := hchain
    exact ⟨⟨hcL1, hmidchain, hbound⟩, hcL2,
      fun x _ y hy => Or.inr (hL2head y hy)⟩
  · -- accounting
    rw [hblocks] at hacc
    rw [freeSum_append, freeSum_append]
    rw [freeSum_append, freeSum_append] at hacc
    omega
  · -- free-list members are FREE block addresses
    intro x hx
    rcases (hmem' x).mp hx with ⟨hxfl, hxnotmid⟩ | hxmid
    · obtain ⟨⟨y, by'⟩, hpr, hpr1, hprfree⟩ := h4a x hxfl
      simp only at hpr1 hprfree
      subst hpr1
      rw [hblocks, hwaOld] at hpr
      rcases List.mem_append.mp hpr with h12 | hz2
      · rcases List.mem_append.mp h12 with hz1 | hzmid
        · exact ⟨(y, by'), by
            rw [hwaNew]
            exact List.mem_append_left _ (List.mem_append_left _ hz1), rfl, hprfree⟩
        · exact absurd (mem_freeAddrsFrom.mpr ⟨by', hzmid, hprfree⟩) hxnotmid
      · exact ⟨(y, by'), by
          rw [hwaNew]
          exact List.mem_append_right _ hz2, rfl, hprfree⟩
    · obtain ⟨bx, hmemx, hbx⟩ := mem_freeAddrsFrom.mp hxmid
      exact ⟨(x, bx), by
        rw [hwaNew]
        exact List.mem_append_left _ (List.mem_append_right _ hmemx), rfl, hbx⟩
  · -- FREE block addresses are on the free list
    rintro ⟨x, bx⟩ hpr hfree
    simp only at hfree
    rw [hwaNew] at hpr
    have hbbx : blkBytes H bx = H + bx.size := rfl
    rcases List.mem_append.mp hpr with h12 | hz2
    · rcases List.mem_append.mp h12 with hz1 | hzmid
      · -- in the untouched prefix
        have hfl : x ∈ h.freeList := by
          apply h4b (x, bx) _ hfree
          rw [hblocks, hwaOld]
          exact List.mem_append_left _ (List.mem_append_left _ hz1)
        have hlt : x < sizeOfBlocks H L1 := by
          have := withAddrs_before hz1
          simp only at this
          omega
        refine (hmem' x).mpr (Or.inl ⟨hfl, fun hc => ?_⟩)
        have := (freeAddrsFrom_bounds hH hc).1
        omega
      · -- in the replaced run
        exact (hmem' x).mpr (Or.inr (mem_freeAddrsFrom.mpr ⟨bx, hzmid, hfree⟩))
    · -- in the untouched suffix
      have hfl : x ∈ h.freeList := by
        apply h4b (x, bx) _ hfree
        rw [hblocks, hwaOld]
        exact List.mem_append_right _ hz2
      have hge : sizeOfBlocks H L1 + sizeOfBlocks H mid ≤ x := withAddrs_base_le hz2
      refine (hmem' x).mpr (Or.inl ⟨hfl, fun hc => ?_⟩)
      have := (freeAddrsFrom_bounds hH hc).2
      omega
  · -- size divisibility
    intro b hb
    rcases List.mem_append.mp hb with h12 | hz2
    · rcases List.mem_append.mp h12 with hz1 | hzmid
      · exact hdvd b (by rw [hblocks]; exact List.mem_append_left _ (List.mem_append_left _ hz1))
      · exact hdvdmid b hzmid
    · exact hdvd b (by rw [hblocks]; exact List.mem_append_right _ hz2)

theorem gcd_dvd_normSize (A sz : Nat) :
    Nat.gcd A RT_MEMHEAP_MINIALLOC ∣ normSize A sz := by
  unfold normSize
  rcases Nat.le_total (RT_ALIGN sz A) RT_MEMHEAP_MINIALLOC with hle | hle
  · rw [Nat.max_eq_right hle]
    exact Nat.gcd_dvd_right _ _
  · rw [Nat.max_eq_left hle]
    exact dvd_trans (Nat.gcd_dvd_left _ _) ⟨(sz + A - 1) / A, Nat.mul_comm _ _⟩

theorem wf_alloc (A H : Nat) (h : Heap) (sz : Nat) (hwf : Wf A H h) :
    Wf A H (rt_memheap_alloc A H h sz).1 := by
  have hwfc := hwf
  obtain ⟨hA, hH, hAH, hne, hlast, hchain, hacc, hnd, h4a, h4b, hdvd⟩ := hwfc
  have h12 : RT_MEMHEAP_MINIALLOC = 12 := rfl
  have hHdvd : Nat.gcd A RT_MEMHEAP_MINIALLOC ∣ H := dvd_trans (Nat.gcd_dvd_left _ _) hAH
  have hn12 : 12 ≤ normSize A sz := by
    have := Nat.le_max_right (RT_ALIGN sz A) RT_MEMHEAP_MINIALLOC
    unfold normSize
    omega
  unfold rt_memheap_alloc
  dsimp only
  split
  · split
    · exact hwf
    · rename_i a heqfind
      split
      · exact hwf
      · rename_i i heqidx
        obtain ⟨L1, b, L2, hbl, hlen, hszL1⟩ := idxOfAddr_some heqidx
        have hmemb : (a, b) ∈ withAddrs H h.blocks 0 := by
          rw [hbl]
          exact mem_withAddrs.mpr ⟨L1, L2, rfl, by rw [Nat.zero_add, hszL1]⟩
        have hafl : a ∈ h.freeList := List.mem_of_find?_eq_some heqfind
        have hbfree : b.used = false := by
          obtain ⟨⟨y, by'⟩, hpr, hy, hfree⟩ := h4a a hafl
          simp only at hy hfree
          subst hy
          rw [withAddrs_inj hH hmemb hpr]
          exact hfree
        have hgb : getBlk h.blocks i = b := by
          rw [hbl, ← hlen]; exact getBlk_decomp L1 L2 b
        have htake : h.blocks.take i = L1 := by
          rw [hbl, ← hlen]; exact take_decomp L1 L2 b
        have hdrop : h.blocks.drop (i + 1) = L2 := by
          rw [hbl, ← hlen]; exact drop_decomp L1 L2 b
        have hlast' : ((L1 ++ b :: L2).getLast?.all (·.used)) = true := by
          rw [← hbl]; exact hlast
        have hL2ne : L2 ≠ [] := free_not_last hlast' hbfree
        have hblocks : h.blocks = L1 ++ [b] ++ L2 := by
          rw [hbl, List.append_assoc]
          rfl
        have hbb : blkBytes H b = H + b.size := rfl
        have hL2head : ∀ y ∈ L2.head?, y.used = true := by
          rw [hbl] at hchain
          unfold noAdjacentFree at hchain
          obtain ⟨-, hc2, -⟩ := List.chain'_append.mp hchain
          rw [List.chain'_cons'] at hc2
          intro y hy
          rcases hc2.1 y hy with hb | hyu
          · rw [hbfree] at hb; cases hb
          · exact hyu
        have haccL : h.available = freeSum L1 + b.size + freeSum L2 := by
          rw [hbl, freeSum_append, freeSum_cons, hbfree] at hacc
          simp only [Bool.false_eq_true, if_false] at hacc
          omega
        split
        · -- split the block
          rename_i hsplitc
          rw [hgb] at hsplitc
          rw [htake, hdrop, hgb]
          have hfresh : (a + normSize A sz + H) ∉ h.freeList :=
            not_mem_freeList_of_inside hH h4a hmemb (by omega) (by omega)
          refine wf_surgery hwf hblocks ?_ hL2ne ?_ ?_ hL2head ?_ ?_ ?_ ?_
          · simp [sizeOfBlocks_cons, sizeOfBlocks_nil, blkBytes]
            omega
          · unfold noAdjacentFree
            simp [List.chain'_cons]
          · intro x _ y hy
            simp only [List.head?, Option.mem_def, Option.some.injEq] at hy
            exact Or.inr (by rw [← hy])
          · simp [freeSum_cons, freeSum_nil]
            omega
          · exact List.nodup_cons.mpr
              ⟨fun hc => hfresh (List.mem_of_mem_erase hc), hnd.erase a⟩
          · intro x
            rw [hszL1]
            rw [freeAddrsFrom_cons, freeAddrsFrom_nil, freeAddrsFrom_cons,
              freeAddrsFrom_cons, freeAddrsFrom_nil]
            simp only [hbfree, Bool.false_eq_true, if_false, if_true, List.append_nil,
              List.nil_append, List.mem_singleton, List.mem_cons,
              hnd.mem_erase_iff, List.not_mem_nil, or_false]
            constructor
            · rintro (rfl | ⟨hne', hx⟩)
              · refine Or.inr ?_
                simp [blkBytes]
                omega
              · exact Or.inl ⟨hx, hne'⟩
            · rintro (⟨hx, hne'⟩ | hx)
              · exact Or.inr ⟨hne', hx⟩
              · refine Or.inl ?_
                simp [blkBytes] at hx
                omega
          · intro c hc
            simp only [List.mem_cons, List.not_mem_nil, or_false] at hc
            rcases hc with rfl | rfl
            · exact gcd_dvd_normSize A sz
            · have hsdvd : Nat.gcd A RT_MEMHEAP_MINIALLOC ∣ b.size :=
                hdvd b (by rw [hbl]; exact List.mem_append_right _ (List.mem_cons_self _ _))
              exact Nat.dvd_sub' (Nat.dvd_sub' hsdvd (gcd_dvd_normSize A sz)) hHdvd
        · -- consume the whole block
          rename_i hnosplit
          rw [hgb] at hnosplit
          rw [htake, hdrop, hgb]
          refine wf_surgery hwf hblocks ?_ hL2ne ?_ ?_ hL2head ?_ (hnd.erase a) ?_ ?_
          · simp [sizeOfBlocks_cons, sizeOfBlocks_nil, blkBytes]
          · unfold noAdjacentFree
            simp
          · intro x _ y hy
            simp only [List.head?, Option.mem_def, Option.some.injEq] at hy
            exact Or.inr (by rw [← hy])
          · simp [freeSum_cons, freeSum_nil]
            omega
          · intro x
            rw [hszL1]
            rw [freeAddrsFrom_cons, freeAddrsFrom_nil, freeAddrsFrom_cons, freeAddrsFrom_nil]
            simp only [hbfree, Bool.false_eq_true, if_false, if_true, List.append_nil,
              List.nil_append, List.mem_singleton, hnd.mem_erase_iff, List.not_mem_nil,
              or_false]
            constructor
            · rintro ⟨hne', hx⟩
              exact ⟨hx, hne'⟩
            · rintro ⟨hx, hne'⟩
              exact ⟨hne', hx⟩
          · intro c hc
            simp only [List.mem_singleton] at hc
            subst hc
            exact hdvd b (by rw [hbl]; exact List.mem_append_right _ (List.mem_cons_self _ _))
  · exact hwf

theorem getBlk_decomp2 (L1 L2 : List Blk) (b d : Blk) :
    getBlk (L1 ++ b :: d :: L2) (L1.length + 1) = d := by
  induction L1 with
  | nil => rfl
  | cons c rest ih =>
    simp only [List.cons_append, List.length_cons, getBlk, List.getD_cons_succ]
    exact ih

theorem drop_decomp3 (L1 L2 : List Blk) (b d e : Blk) :
    (L1 ++ b :: d :: e :: L2).drop (L1.length + 3) = L2 := by
  induction L1 with
  | nil => rfl
  | cons c rest ih => simpa using ih

theorem wf_free (A H : Nat) (h : Heap) (p : Nat) (hwf : Wf A H h) :
    Wf A H (rt_memheap_free A H h p) := by
  have hwfc := hwf
  have h12 : RT_MEMHEAP_MINIALLOC = 12 := rfl
  obtain ⟨hA, hH, hAH, hne, hlast, hchain, hacc, hnd, h4a, h4b, hdvd⟩ := hwfc
  have hHdvd : Nat.gcd A RT_MEMHEAP_MINIALLOC ∣ H := dvd_trans (Nat.gcd_dvd_left _ _) hAH
  unfold rt_memheap_free
  split
  · exact hwf
  · split
    · exact hwf
    · rename_i i heqidx
      dsimp only
      split
      · rename_i hcond
        obtain ⟨hbused, hilen⟩ := hcond
        obtain ⟨L1, b, L2, hbl, hlen, hszL1⟩ := idxOfAddr_some heqidx
        have hgb : getBlk h.blocks i = b := by
          rw [hbl, ← hlen]; exact getBlk_decomp L1 L2 b
        rw [hgb] at hbused
        have hlenb : h.blocks.length = L1.length + 1 + L2.length := by
          rw [hbl]; simp; omega
        have hL2ne : L2 ≠ [] := by
          intro hcon
          rw [hcon] at hlenb
          simp at hlenb
          omega
        cases L2 with
        | nil => exact absurd rfl hL2ne
        | cons d L2' =>
        have hgd : getBlk h.blocks (i + 1) = d := by
          rw [hbl, ← hlen]; exact getBlk_decomp2 L1 L2' b d
        have hmemb : (p - H, b) ∈ withAddrs H h.blocks 0 := by
          rw [hbl]
          exact mem_withAddrs.mpr ⟨L1, d :: L2', rfl, by rw [Nat.zero_add, hszL1]⟩
        have hbb : blkBytes H b = H + b.size := rfl
        have hbd : blkBytes H d = H + d.size := rfl
        have hdmem : (p - H + blkBytes H b, d) ∈ withAddrs H h.blocks 0 := by
          rw [hbl]
          refine mem_withAddrs.mpr ⟨L1 ++ [b], L2', by simp, ?_⟩
          rw [sizeOfBlocks_append, hszL1]
          simp [sizeOfBlocks_cons, sizeOfBlocks_nil]
        have hpH : H ≤ p := by
          rename_i hnotlt _
          omega
        split
        · -- left neighbour is FREE
          rename_i hleft
          obtain ⟨hipos, hlfree⟩ := hleft
          have hL1ne : L1 ≠ [] := by
            intro hc
            rw [hc] at hlen
            simp at hlen
            omega
          rcases List.eq_nil_or_concat' L1 with hc | ⟨L1', c, hc⟩
          · exact absurd hc hL1ne
          subst hc
          have hlen' : L1'.length + 1 = i := by
            simp at hlen
            omega
          have hbl' : h.blocks = L1' ++ c :: b :: d :: L2' := by
            rw [hbl]; simp
          have hgc : getBlk h.blocks (i - 1) = c := by
            rw [hbl', show i - 1 = L1'.length from by omega]
            exact getBlk_decomp L1' (b :: d :: L2') c
          rw [hgc] at hlfree
          have ha0 : sizeOfBlocks H L1' + blkBytes H c = p - H := by
            rw [← hszL1, sizeOfBlocks_append]
            simp [sizeOfBlocks_cons, sizeOfBlocks_nil]
          have hbc : blkBytes H c = H + c.size := rfl
          have hcmem : (sizeOfBlocks H L1', c) ∈ withAddrs H h.blocks 0 := by
            rw [hbl']
            exact mem_withAddrs.mpr ⟨L1', b :: d :: L2', rfl, by rw [Nat.zero_add]⟩
          have ha0fl : sizeOfBlocks H L1' ∈ h.freeList := h4b _ hcmem hlfree
          have htake : h.blocks.take (i - 1) = L1' := by
            rw [hbl', show i - 1 = L1'.length from by omega]
            exact take_decomp L1' (b :: d :: L2') c
          have hchain' : noAdjacentFree (L1' ++ c :: b :: d :: L2') := by
            rw [← hbl']; exact hchain
          have hbound' : ∀ x ∈ L1'.getLast?, x.used = true := by
            unfold noAdjacentFree at hchain'
            obtain ⟨-, -, hbd'⟩ := List.chain'_append.mp hchain'
            intro x hx
            rcases hbd' x hx c rfl with hxu | hcu
            · exact hxu
            · rw [hlfree] at hcu; cases hcu
          have hdvdc : Nat.gcd A RT_MEMHEAP_MINIALLOC ∣ c.size :=
            hdvd c (by rw [hbl']; exact List.mem_append_right _ (by simp))
          have hdvdb : Nat.gcd A RT_MEMHEAP_MINIALLOC ∣ b.size :=
            hdvd b (by rw [hbl']; exact List.mem_append_right _ (by simp))
          have hdvdd : Nat.gcd A RT_MEMHEAP_MINIALLOC ∣ d.size :=
            hdvd d (by rw [hbl']; exact List.mem_append_right _ (by simp))
          split
          · -- also right neighbour FREE: double coalesce
            rename_i hrfree
            rw [hgd] at hrfree
            rw [htake, hgc, hgb, hgd,
              show i + 2 = L1'.length + 3 from by omega, hbl', drop_decomp3]
            have hacc' : h.available =
                freeSum L1' + c.size + d.size + freeSum L2' := by
              rw [hacc, hbl']
              simp [freeSum_append, freeSum_cons, hlfree, hbused, hrfree]
              omega
            have hblk3 : h.blocks = L1' ++ [c, b, d] ++ L2' := by rw [hbl']; simp
            have hfa1 : freeAddrsFrom H [c, b, d] (sizeOfBlocks H L1') =
                [sizeOfBlocks H L1',
                  sizeOfBlocks H L1' + blkBytes H c + blkBytes H b] := by
              simp [freeAddrsFrom_cons, freeAddrsFrom_nil, hlfree, hbused, hrfree]
            have hfa2 : freeAddrsFrom H [⟨false, c.size + H + b.size + H + d.size⟩]
                (sizeOfBlocks H L1') = [sizeOfBlocks H L1'] := by
              simp [freeAddrsFrom_cons, freeAddrsFrom_nil]
            refine wf_surgery hwf hblk3 ?_ ?_ ?_ ?_ ?_ ?_ (hnd.erase _) ?_ ?_
            · simp only [sizeOfBlocks_cons, sizeOfBlocks_nil, blkBytes]
              omega
            · have heq : (L1' ++ [c, b]) ++ d :: L2' = h.blocks := by rw [hbl']; simp
              exact free_not_last (by rw [heq]; exact hlast) hrfree
            · unfold noAdjacentFree; simp
            · intro x hx y hy
              exact Or.inl (hbound' x hx)
            · unfold noAdjacentFree at hchain'
              intro y hy
              obtain ⟨-, hc2, -⟩ := List.chain'_append.mp hchain'
              rw [List.chain'_cons', List.chain'_cons', List.chain'_cons'] at hc2
              rcases hc2.2.2.1 y hy with hdu | hyu
              · rw [hrfree] at hdu; cases hdu
              · exact hyu
            · simp [freeSum_cons, freeSum_nil]
              omega
            · intro x
              rw [hfa1, hfa2, hnd.mem_erase_iff]
              simp only [List.mem_cons, List.mem_singleton, List.not_mem_nil, or_false]
              constructor
              · rintro ⟨hnex, hx⟩
                by_cases hxa : x = sizeOfBlocks H L1'
                · exact Or.inr hxa
                · exact Or.inl ⟨hx, by omega⟩
              · rintro (⟨hx, hno⟩ | hxa)
                · exact ⟨by omega, hx⟩
                · subst hxa
                  exact ⟨by omega, ha0fl⟩
            · intro cc hcc
              simp only [List.mem_singleton] at hcc
              subst hcc
              exact Nat.dvd_add (Nat.dvd_add (Nat.dvd_add (Nat.dvd_add hdvdc hHdvd) hdvdb) hHdvd) hdvdd
          · -- only left coalesce
            rename_i hrused
            rw [hgd] at hrused
            have hdu : d.used = true := by
              cases hdu : d.used
              · exact absurd hdu hrused
              · rfl
            rw [htake, hgc, hgb,
              show i + 1 = L1'.length + 2 from by omega, hbl', drop_decomp2]
            have hacc' : h.available = freeSum L1' + c.size + freeSum L2' := by
              rw [hacc, hbl']
              rw [freeSum_append, freeSum_cons, freeSum_cons, freeSum_cons]
              simp [hlfree, hbused, hdu]
              omega
            have hblk3 : h.blocks = L1' ++ [c, b] ++ (d :: L2') := by rw [hbl']; simp
            have hfa1 : freeAddrsFrom H [c, b] (sizeOfBlocks H L1') =
                [sizeOfBlocks H L1'] := by
              simp [freeAddrsFrom_cons, freeAddrsFrom_nil, hlfree, hbused]
            have hfa2 : freeAddrsFrom H [⟨false, c.size + H + b.size⟩]
                (sizeOfBlocks H L1') = [sizeOfBlocks H L1'] := by
              simp [freeAddrsFrom_cons, freeAddrsFrom_nil]
            refine wf_surgery hwf hblk3 ?_ (by simp) ?_ ?_ ?_ ?_ hnd ?_ ?_
            · simp only [sizeOfBlocks_cons, sizeOfBlocks_nil, blkBytes]
              omega
            · unfold noAdjacentFree; simp
            · intro x hx y hy
              exact Or.inl (hbound' x hx)
            · intro y hy
              simp only [List.head?, Option.mem_def, Option.some.injEq] at hy
              rw [← hy]
              exact hdu
            · simp [freeSum_cons, freeSum_nil, hdu]
              omega
            · intro x
              rw [hfa1, hfa2]
              simp only [List.mem_singleton, List.not_mem_nil, or_false]
              constructor
              · intro hx
                by_cases hxa : x = sizeOfBlocks H L1'
                · exact Or.inr hxa
                · exact Or.inl ⟨hx, hxa⟩
              · rintro (⟨hx, -⟩ | hxa)
                · exact hx
                · subst hxa; exact ha0fl
            · intro cc hcc
              simp only [List.mem_singleton] at hcc
              subst hcc
              exact Nat.dvd_add (Nat.dvd_add hdvdc hHdvd) hdvdb
        · -- no left coalesce
          rename_i hnleft
          have hbound' : ∀ x ∈ L1.getLast?, x.used = true := by
            intro x hx
            rcases List.eq_nil_or_concat' L1 with hc | ⟨L1', c, hc⟩
            · rw [hc] at hx; simp [List.getLast?] at hx
            · subst hc
              rw [List.getLast?_concat] at hx
              have hxc : c = x := by simpa using hx
              subst hxc
              have hgc : getBlk h.blocks (i - 1) = c := by
                rw [hbl, show i - 1 = L1'.length from by simp at hlen; omega,
                  show (L1' ++ [c]) ++ b :: d :: L2' = L1' ++ c :: b :: d :: L2' by simp]
                exact getBlk_decomp L1' (b :: d :: L2') c
              have hipos : 0 < i := by
                simp at hlen
                omega
              cases hxu : c.used
              · exact absurd ⟨hipos, by rw [hgc]; exact hxu⟩ hnleft
              · rfl
          have hpnot : p - H ∉ h.freeList := not_mem_freeList_of_used hH h4a hmemb hbused
          have htake : h.blocks.take i = L1 := by
            rw [hbl, ← hlen]; exact take_decomp _ _ _
          have hdvdb : Nat.gcd A RT_MEMHEAP_MINIALLOC ∣ b.size :=
            hdvd b (by rw [hbl]; exact List.mem_append_right _ (by simp))
          have hdvdd : Nat.gcd A RT_MEMHEAP_MINIALLOC ∣ d.size :=
            hdvd d (by rw [hbl]; exact List.mem_append_right _ (by simp))
          split
          · -- only right coalesce
            rename_i hrfree
            rw [hgd] at hrfree
            rw [hgb, hgd, htake, show i + 2 = L1.length + 2 from by omega, hbl,
              drop_decomp2]
            have hacc' : h.available = freeSum L1 + d.size + freeSum L2' := by
              rw [hacc, hbl]
              rw [freeSum_append, freeSum_cons, freeSum_cons]
              simp [hbused, hrfree]
              omega
            have hdnfl : p - H + blkBytes H b ∈ h.freeList := h4b _ hdmem hrfree
            have hblk3 : h.blocks = L1 ++ [b, d] ++ L2' := by rw [hbl]; simp
            have hfa1 : freeAddrsFrom H [b, d] (sizeOfBlocks H L1) =
                [sizeOfBlocks H L1 + blkBytes H b] := by
              simp [freeAddrsFrom_cons, freeAddrsFrom_nil, hbused, hrfree]
            have hfa2 : freeAddrsFrom H [⟨false, b.size + H + d.size⟩]
                (sizeOfBlocks H L1) = [sizeOfBlocks H L1] := by
              simp [freeAddrsFrom_cons, freeAddrsFrom_nil]
            refine wf_surgery hwf hblk3 ?_ ?_ ?_ ?_ ?_ ?_ ?_ ?_ ?_
            · simp only [sizeOfBlocks_cons, sizeOfBlocks_nil, blkBytes]
              omega
            · have heq : (L1 ++ [b]) ++ d :: L2' = h.blocks := by rw [hbl]; simp
              exact free_not_last (by rw [heq]; exact hlast) hrfree
            · unfold noAdjacentFree; simp
            · intro x hx y hy
              exact Or.inl (hbound' x hx)
            · rw [hbl] at hchain
              unfold noAdjacentFree at hchain
              intro y hy
              obtain ⟨-, hc2, -⟩ := List.chain'_append.mp hchain
              rw [List.chain'_cons', List.chain'_cons'] at hc2
              rcases hc2.2.1 y hy with hdu | hyu
              · rw [hrfree] at hdu; cases hdu
              · exact hyu
            · simp [freeSum_cons, freeSum_nil]
              omega
            · refine List.nodup_cons.mpr ⟨fun hcc => hpnot (List.mem_of_mem_erase hcc), hnd.erase _⟩
            · intro x
              rw [hfa1, hfa2, hszL1]
              simp only [List.mem_cons, List.mem_singleton, List.not_mem_nil, or_false,
                hnd.mem_erase_iff]
              constructor
              · rintro (hxa | ⟨hnex, hx⟩)
                · exact Or.inr hxa
                · exact Or.inl ⟨hx, by omega⟩
              · rintro (⟨hx, hno⟩ | hxa)
                · exact Or.inr ⟨by omega, hx⟩
                · exact Or.inl hxa
            · intro cc hcc
              simp only [List.mem_singleton] at hcc
              subst hcc
              exact Nat.dvd_add (Nat.dvd_add hdvdb hHdvd) hdvdd
          · -- no coalesce at all
            rename_i hrused
            rw [hgd] at hrused
            have hdu : d.used = true := by
              cases hdu : d.used
              · exact absurd hdu hrused
              · rfl
            rw [hgb, htake, show i + 1 = L1.length + 1 from by omega, hbl, drop_decomp]
            have hacc' : h.available = freeSum L1 + freeSum L2' := by
              rw [hacc, hbl]
              rw [freeSum_append, freeSum_cons, freeSum_cons]
              simp [hbused, hdu]
            have hblk3 : h.blocks = L1 ++ [b] ++ (d :: L2') := by rw [hbl]; simp
            have hfa1 : freeAddrsFrom H [b] (sizeOfBlocks H L1) = [] := by
              simp [freeAddrsFrom_cons, freeAddrsFrom_nil, hbused]
            have hfa2 : freeAddrsFrom H [⟨false, b.size⟩] (sizeOfBlocks H L1) =
                [sizeOfBlocks H L1] := by
              simp [freeAddrsFrom_cons, freeAddrsFrom_nil]
            refine wf_surgery hwf hblk3 ?_ (by simp) ?_ ?_ ?_ ?_ ?_ ?_ ?_
            · simp only [sizeOfBlocks_cons, sizeOfBlocks_nil, blkBytes]
            · unfold noAdjacentFree; simp
            · intro x hx y hy
              exact Or.inl (hbound' x hx)
            · intro y hy
              simp only [List.head?, Option.mem_def, Option.some.injEq] at hy
              rw [← hy]
              exact hdu
            · simp [freeSum_cons, freeSum_nil, hdu]
              omega
            · exact List.nodup_cons.mpr ⟨hpnot, hnd⟩
            · intro x
              rw [hfa1, hfa2, hszL1]
              simp only [List.mem_cons, List.mem_singleton, List.not_mem_nil, or_false,
                not_false_iff, and_true]
              constructor
              · rintro (hxa | hx)
                · exact Or.inr hxa
                · exact Or.inl hx
              · rintro (hx | hxa)
                · exact Or.inr hx
                · exact Or.inl hxa
            · intro cc hcc
              simp only [List.mem_singleton] at hcc
              subst hcc
              exact hdvdb
      · exact hwf

theorem wf_realloc (A H : Nat) (h : Heap) (p sz : Nat) (hwf : Wf A H h) :
    Wf A H (rt_memheap_realloc A H h p sz).1 := by
  have hwfc := hwf
  have h12 : RT_MEMHEAP_MINIALLOC = 12 := rfl
  obtain ⟨hA, hH, hAH, hne, hlast, hchain, hacc, hnd, h4a, h4b, hdvd⟩ := hwfc
  have hHdvd : Nat.gcd A RT_MEMHEAP_MINIALLOC ∣ H := dvd_trans (Nat.gcd_dvd_left _ _) hAH
  have hn12 : 12 ≤ normSize A sz := by
    have := Nat.le_max_right (RT_ALIGN sz A) RT_MEMHEAP_MINIALLOC
    unfold normSize
    omega
  unfold rt_memheap_realloc
  dsimp only
  split
  · exact wf_free A H h p hwf
  · split
    · exact wf_alloc A H h (normSize A sz) hwf
    · split
      · exact hwf
      · split
        · exact hwf
        · rename_i i heqidx
          split
          · rename_i hcond
            obtain ⟨hbused, hilen⟩ := hcond
            obtain ⟨L1, b, L2, hbl, hlen, hszL1⟩ := idxOfAddr_some heqidx
            have hgb : getBlk h.blocks i = b := by
              rw [hbl, ← hlen]; exact getBlk_decomp L1 L2 b
            rw [hgb] at hbused
            have hlenb : h.blocks.length = L1.length + 1 + L2.length := by
              rw [hbl]; simp; omega
            have hL2ne : L2 ≠ [] := by
              intro hcon
              rw [hcon] at hlenb
              simp at hlenb
              omega
            cases L2 with
            | nil => exact absurd rfl hL2ne
            | cons d L2' =>
            have hgd : getBlk h.blocks (i + 1) = d := by
              rw [hbl, ← hlen]; exact getBlk_decomp2 L1 L2' b d
            have hmemb : (p - H, b) ∈ withAddrs H h.blocks 0 := by
              rw [hbl]
              exact mem_withAddrs.mpr ⟨L1, d :: L2', rfl, by rw [Nat.zero_add, hszL1]⟩
            have hbb : blkBytes H b = H + b.size := rfl
            have hbd : blkBytes H d = H + d.size := rfl
            have hdmem : (p - H + blkBytes H b, d) ∈ withAddrs H h.blocks 0 := by
              rw [hbl]
              refine mem_withAddrs.mpr ⟨L1 ++ [b], L2', by simp, ?_⟩
              rw [sizeOfBlocks_append, hszL1]
              simp [sizeOfBlocks_cons, sizeOfBlocks_nil]
            have hpH : H ≤ p := by
              rename_i hnz hnotlt _
              omega
            have htake : h.blocks.take i = L1 := by
              rw [hbl, ← hlen]; exact take_decomp _ _ _
            have hdvdb : Nat.gcd A RT_MEMHEAP_MINIALLOC ∣ b.size :=
              hdvd b (by rw [hbl]; exact List.mem_append_right _ (by simp))
            have hdvdd : Nat.gcd A RT_MEMHEAP_MINIALLOC ∣ d.size :=
              hdvd d (by rw [hbl]; exact List.mem_append_right _ (by simp))
            have hbound' : ∀ x ∈ L1.getLast?, ∀ y : Blk, y.used = true → x.used = true ∨ y.used = true :=
              fun x _ y hy => Or.inr hy
            split
            · -- grow
              rename_i hgrow
              split
              · -- in-place grow
                rename_i hfit
                rw [hgd, hgb] at hfit
                obtain ⟨hdfree, hroom⟩ := hfit
                rw [hgb, hgd, htake, show i + 2 = L1.length + 2 from by omega, hbl,
                  drop_decomp2]
                rw [hgb] at hgrow
                have hacc' : h.available = freeSum L1 + d.size + freeSum L2' := by
                  rw [hacc, hbl]
                  rw [freeSum_append, freeSum_cons, freeSum_cons]
                  simp [hbused, hdfree]
                  omega
                have hfresh : p + normSize A sz ∉ h.freeList := by
                  refine not_mem_freeList_of_inside hH h4a hdmem ?_ ?_
                  · omega
                  · omega
                have hblk3 : h.blocks = L1 ++ [b, d] ++ L2' := by rw [hbl]; simp
                have hfa1 : freeAddrsFrom H [b, d] (sizeOfBlocks H L1) =
                    [sizeOfBlocks H L1 + blkBytes H b] := by
                  simp [freeAddrsFrom_cons, freeAddrsFrom_nil, hbused, hdfree]
                have hfa2 : freeAddrsFrom H
                    [⟨true, normSize A sz⟩, ⟨false, b.size + d.size - normSize A sz⟩]
                    (sizeOfBlocks H L1) =
                    [sizeOfBlocks H L1 + blkBytes H (⟨true, normSize A sz⟩ : Blk)] := by
                  simp [freeAddrsFrom_cons, freeAddrsFrom_nil]
                refine wf_surgery hwf hblk3 ?_ ?_ ?_ ?_ ?_ ?_ ?_ ?_ ?_
                · simp only [sizeOfBlocks_cons, sizeOfBlocks_nil, blkBytes]
                  omega
                · have heq : (L1 ++ [b]) ++ d :: L2' = h.blocks := by rw [hbl]; simp
                  exact free_not_last (by rw [heq]; exact hlast) hdfree
                · unfold noAdjacentFree; simp
                · intro x hx y hy
                  simp only [List.head?, Option.mem_def, Option.some.injEq] at hy
                  exact Or.inr (by rw [← hy])
                · rw [hbl] at hchain
                  unfold noAdjacentFree at hchain
                  intro y hy
                  obtain ⟨-, hc2, -⟩ := List.chain'_append.mp hchain
                  rw [List.chain'_cons', List.chain'_cons'] at hc2
                  rcases hc2.2.1 y hy with hdu | hyu
                  · rw [hdfree] at hdu; cases hdu
                  · exact hyu
                · simp [freeSum_cons, freeSum_nil]
                  omega
                · refine List.nodup_cons.mpr
                    ⟨fun hcc => hfresh (List.mem_of_mem_erase hcc), hnd.erase _⟩
                · intro x
                  rw [hfa1, hfa2, hszL1]
                  simp only [List.mem_cons, List.mem_singleton, List.not_mem_nil, or_false,
                    blkBytes, hnd.mem_erase_iff]
                  constructor
                  · rintro (hxa | ⟨hnex, hx⟩)
                    · exact Or.inr (by omega)
                    · exact Or.inl ⟨hx, by omega⟩
                  · rintro (⟨hx, hno⟩ | hxa)
                    · exact Or.inr ⟨by omega, hx⟩
                    · exact Or.inl (by omega)
                · intro cc hcc
                  simp only [List.mem_cons, List.not_mem_nil, or_false] at hcc
                  rcases hcc with rfl | rfl
                  · exact gcd_dvd_normSize A sz
                  · exact Nat.dvd_sub' (Nat.dvd_add hdvdb hdvdd) (gcd_dvd_normSize A sz)
              · -- move: allocate, copy, free
                split
                · rename_i h1 q heq
                  have hwf1 : Wf A H h1 := by
                    have := wf_alloc A H h (normSize A sz) hwf
                    rw [heq] at this
                    exact this
                  exact wf_free A H _ p hwf1
                · rename_i h1 heq
                  have hwf1 : Wf A H h1 := by
                    have := wf_alloc A H h (normSize A sz) hwf
                    rw [heq] at this
                    exact this
                  exact hwf1
            · -- shrink / same size
              rename_i hnogrow
              rw [hgb] at hnogrow
              split
              · exact hwf
              · rename_i hdosplit
                rw [hgb] at hdosplit
                have hfresh : p + normSize A sz ∉ h.freeList := by
                  refine not_mem_freeList_of_inside hH h4a hmemb ?_ ?_
                  · omega
                  · omega
                split
                · -- split-off block coalesces with FREE right neighbour
                  rename_i hdfree
                  rw [hgd] at hdfree
                  rw [hgb, hgd, htake, show i + 2 = L1.length + 2 from by omega, hbl,
                    drop_decomp2]
                  have hacc' : h.available = freeSum L1 + d.size + freeSum L2' := by
                    rw [hacc, hbl]
                    rw [freeSum_append, freeSum_cons, freeSum_cons]
                    simp [hbused, hdfree]
                    omega
                  have hblk3 : h.blocks = L1 ++ [b, d] ++ L2' := by rw [hbl]; simp
                  have hfa1 : freeAddrsFrom H [b, d] (sizeOfBlocks H L1) =
                      [sizeOfBlocks H L1 + blkBytes H b] := by
                    simp [freeAddrsFrom_cons, freeAddrsFrom_nil, hbused, hdfree]
                  have hfa2 : freeAddrsFrom H
                      [⟨true, normSize A sz⟩, ⟨false, b.size - normSize A sz + d.size⟩]
                      (sizeOfBlocks H L1) =
                      [sizeOfBlocks H L1 + blkBytes H (⟨true, normSize A sz⟩ : Blk)] := by
                    simp [freeAddrsFrom_cons, freeAddrsFrom_nil]
                  refine wf_surgery hwf hblk3 ?_ ?_ ?_ ?_ ?_ ?_ ?_ ?_ ?_
                  · simp only [sizeOfBlocks_cons, sizeOfBlocks_nil, blkBytes]
                    omega
                  · have heq : (L1 ++ [b]) ++ d :: L2' = h.blocks := by rw [hbl]; simp
                    exact free_not_last (by rw [heq]; exact hlast) hdfree
                  · unfold noAdjacentFree; simp
                  · intro x hx y hy
                    simp only [List.head?, Option.mem_def, Option.some.injEq] at hy
                    exact Or.inr (by rw [← hy])
                  · rw [hbl] at hchain
                    unfold noAdjacentFree at hchain
                    intro y hy
                    obtain ⟨-, hc2, -⟩ := List.chain'_append.mp hchain
                    rw [List.chain'_cons', List.chain'_cons'] at hc2
                    rcases hc2.2.1 y hy with hdu | hyu
                    · rw [hdfree] at hdu; cases hdu
                    · exact hyu
                  · simp [freeSum_cons, freeSum_nil]
                    omega
                  · refine List.nodup_cons.mpr
                      ⟨fun hcc => hfresh (List.mem_of_mem_erase hcc), hnd.erase _⟩
                  · intro x
                    rw [hfa1, hfa2, hszL1]
                    simp only [List.mem_cons, List.mem_singleton, List.not_mem_nil, or_false,
                      blkBytes, hnd.mem_erase_iff]
                    constructor
                    · rintro (hxa | ⟨hnex, hx⟩)
                      · exact Or.inr (by omega)
                      · exact Or.inl ⟨hx, by omega⟩
                    · rintro (⟨hx, hno⟩ | hxa)
                      · exact Or.inr ⟨by omega, hx⟩
                      · exact Or.inl (by omega)
                  · intro cc hcc
                    simp only [List.mem_cons, List.not_mem_nil, or_false] at hcc
                    rcases hcc with rfl | rfl
                    · exact gcd_dvd_normSize A sz
                    · exact Nat.dvd_add (Nat.dvd_sub' hdvdb (gcd_dvd_normSize A sz)) hdvdd
                · -- plain split, right neighbour USED
                  rename_i hdused
                  rw [hgd] at hdused
                  have hdu : d.used = true := by
                    cases hduc : d.used
                    · exact absurd hduc hdused
                    · rfl
                  rw [hgb, htake, show i + 1 = L1.length + 1 from by omega, hbl,
                    drop_decomp]
                  have hacc' : h.available = freeSum L1 + freeSum L2' := by
                    rw [hacc, hbl]
                    rw [freeSum_append, freeSum_cons, freeSum_cons]
                    simp [hbused, hdu]
                  have hblk3 : h.blocks = L1 ++ [b] ++ (d :: L2') := by rw [hbl]; simp
                  have hfa1 : freeAddrsFrom H [b] (sizeOfBlocks H L1) = [] := by
                    simp [freeAddrsFrom_cons, freeAddrsFrom_nil, hbused]
                  have hfa2 : freeAddrsFrom H
                      [⟨true, normSize A sz⟩, ⟨false, b.size - normSize A sz - H⟩]
                      (sizeOfBlocks H L1) =
                      [sizeOfBlocks H L1 + blkBytes H (⟨true, normSize A sz⟩ : Blk)] := by
                    simp [freeAddrsFrom_cons, freeAddrsFrom_nil]
                  refine wf_surgery hwf hblk3 ?_ (by simp) ?_ ?_ ?_ ?_ ?_ ?_ ?_
                  · simp only [sizeOfBlocks_cons, sizeOfBlocks_nil, blkBytes]
                    omega
                  · unfold noAdjacentFree; simp
                  · intro x hx y hy
                    simp only [List.head?, Option.mem_def, Option.some.injEq] at hy
                    exact Or.inr (by rw [← hy])
                  · intro y hy
                    simp only [List.head?, Option.mem_def, Option.some.injEq] at hy
                    rw [← hy]
                    exact hdu
                  · simp [freeSum_cons, freeSum_nil, hdu]
                    omega
                  · exact List.nodup_cons.mpr ⟨hfresh, hnd⟩
                  · intro x
                    rw [hfa1, hfa2, hszL1]
                    simp only [List.mem_cons, List.mem_singleton, List.not_mem_nil, or_false,
                      not_false_iff, and_true, blkBytes]
                    constructor
                    · rintro (hxa | hx)
                      · exact Or.inr (by omega)
                      · exact Or.inl hx
                    · rintro (hx | hxa)
                      · exact Or.inr hx
                      · exact Or.inl (by omega)
                  · intro cc hcc
                    simp only [List.mem_cons, List.not_mem_nil, or_false] at hcc
                    rcases hcc with rfl | rfl
                    · exact gcd_dvd_normSize A sz
                    · exact Nat.dvd_sub'
                        (Nat.dvd_sub' hdvdb (gcd_dvd_normSize A sz)) hHdvd
          · exact hwf

theorem wf_init (A H S : Nat) (m0 : Mem) (hA : 0 < A) (hH : 0 < H) (hAH : A ∣ H) :
    Wf A H (rt_memheap_init A H S m0) := by
  have hHdvd : Nat.gcd A RT_MEMHEAP_MINIALLOC ∣ H := dvd_trans (Nat.gcd_dvd_left _ _) hAH
  unfold rt_memheap_init Wf
  dsimp only
  refine ⟨hA, hH, hAH, by simp, by simp [List.getLast?], ?_, ?_, by simp, ?_, ?_, ?_⟩
  · unfold noAdjacentFree
    simp
  · simp [freeSum_cons, freeSum_nil]
  · intro a ha
    simp only [List.mem_singleton] at ha
    subst ha
    exact ⟨(0, ⟨false, RT_ALIGN_DOWN S A - 2 * H⟩), by simp [withAddrs], rfl, rfl⟩
  · rintro ⟨x, bx⟩ hpr hfree
    simp only [withAddrs, List.mem_cons, List.not_mem_nil, or_false, Prod.mk.injEq] at hpr
    rcases hpr with ⟨hx, hb⟩ | ⟨hx, hb⟩
    · simp [hx]
    · rw [hb] at hfree
      simp at hfree
  · intro b hb
    simp only [List.mem_cons, List.not_mem_nil, or_false] at hb
    rcases hb with rfl | rfl
    · refine Nat.dvd_sub' ?_ ?_
      · exact dvd_trans (Nat.gcd_dvd_left _ _) ⟨S / A, Nat.mul_comm _ _⟩
      · exact Dvd.dvd.mul_left hHdvd 2
    · exact dvd_zero _

theorem wf_runOps (A H : Nat) (h : Heap) (ops : List HeapOp) (hwf : Wf A H h) :
    Wf A H (runOps A H h ops) := by
  induction ops generalizing h with
  | nil => exact hwf
  | cons op rest ih =>
    have hstep : Wf A H (applyOp A H h op) := by
      cases op with
      | alloc sz => exact wf_alloc A H h sz hwf
      | free p => exact wf_free A H h p hwf
      | realloc p sz => exact wf_realloc A H h p sz hwf
    exact ih _ hstep


/-- C1: Coalescing completeness — for every pool built by `rt_memheap_init`
(with the configuration constraints of the source and a region large enough
for the two initial headers) and every sequence of `rt_memheap_alloc` /
`rt_memheap_free` / `rt_memheap_realloc` operations, at every quiescent point
no two physically adjacent blocks of the block list are both FREE: the eager
left/right coalesce in free and the right coalesce in realloc's shrink path
preserve spec invariant I5 / property P2. -/
theorem c1_coalescing_completeness (A H S : Nat) (m0 : Mem) (ops : List HeapOp)
    (hA : 0 < A) (hH : 0 < H) (hAH : A ∣ H) (hS : 2 * H ≤ RT_ALIGN_DOWN S A) :
    noAdjacentFree (runOps A H (rt_memheap_init A H S m0) ops).blocks :=
  (wf_runOps A H _ ops (wf_init A H S m0 hA hH hAH)).2.2.2.2.2.1

set_option maxHeartbeats 1000000 in
theorem c1_coalescing_completeness_witness :
    0 < 4 ∧ 0 < 12 ∧ (4 : Nat) ∣ 12 ∧ 2 * 12 ≤ RT_ALIGN_DOWN 1024 4 ∧
    noAdjacentFree (runOps 4 12 (rt_memheap_init 4 12 1024 (fun _ => 0))
      [HeapOp.alloc 100, HeapOp.alloc 200, HeapOp.free 12,
        HeapOp.realloc 124 400, HeapOp.free 124, HeapOp.alloc 50]).blocks :=
  ⟨by decide, by decide, by decide, by decide,
    c1_coalescing_completeness 4 12 1024 (fun _ => 0)
      [HeapOp.alloc 100, HeapOp.alloc 200, HeapOp.free 12,
        HeapOp.realloc 124 400, HeapOp.free 124, HeapOp.alloc 50]
      (by decide) (by decide) (by decide) (by decide)⟩

/-- C2: Accounting invariant — for every pool built by `rt_memheap_init` and
every operation sequence, at every quiescent point `heap->available_size`
equals the sum of `MEMITEM_SIZE(b)` (payload sizes) over all FREE blocks:
each split subtracts the used payload plus one header and each coalesce adds
back one reclaimed header, keeping spec invariant I6 / property P4. -/
theorem c2_accounting_invariant (A H S : Nat) (m0 : Mem) (ops : List HeapOp)
    (hA : 0 < A) (hH : 0 < H) (hAH : A ∣ H) (hS : 2 * H ≤ RT_ALIGN_DOWN S A) :
    (runOps A H (rt_memheap_init A H S m0) ops).available =
      freeSum (runOps A H (rt_memheap_init A H S m0) ops).blocks :=
  (wf_runOps A H _ ops (wf_init A H S m0 hA hH hAH)).2.2.2.2.2.2.1

set_option maxHeartbeats 1000000 in
theorem c2_accounting_invariant_witness :
    0 < 4 ∧ 0 < 12 ∧ (4 : Nat) ∣ 12 ∧ 2 * 12 ≤ RT_ALIGN_DOWN 1024 4 ∧
    (runOps 4 12 (rt_memheap_init 4 12 1024 (fun _ => 0))
      [HeapOp.alloc 100, HeapOp.alloc 200, HeapOp.free 12,
        HeapOp.realloc 124 400, HeapOp.free 124, HeapOp.alloc 50]).available =
      freeSum (runOps 4 12 (rt_memheap_init 4 12 1024 (fun _ => 0))
        [HeapOp.alloc 100, HeapOp.alloc 200, HeapOp.free 12,
          HeapOp.realloc 124 400, HeapOp.free 124, HeapOp.alloc 50]).blocks :=
  ⟨by decide, by decide, by decide, by decide,
    c2_accounting_invariant 4 12 1024 (fun _ => 0)
      [HeapOp.alloc 100, HeapOp.alloc 200, HeapOp.free 12,
        HeapOp.realloc 124 400, HeapOp.free 124, HeapOp.alloc 50]
      (by decide) (by decide) (by decide) (by decide)⟩

/-- Fixed point of request normalisation: the normalised size is `A`-aligned
when `A` divides `RT_MEMHEAP_MINIALLOC`. -/
theorem dvd_normSize_self (A sz : Nat) (hA12 : A ∣ RT_MEMHEAP_MINIALLOC) :
    A ∣ normSize A sz := by
  unfold normSize
  rcases Nat.le_total (RT_ALIGN sz A) RT_MEMHEAP_MINIALLOC with hle | hle
  · rw [Nat.max_eq_right hle]
    exact hA12
  · rw [Nat.max_eq_left hle]
    exact ⟨(sz + A - 1) / A, Nat.mul_comm _ _⟩

theorem RT_ALIGN_of_dvd (A m : Nat) (hA : 0 < A) (hdvd : A ∣ m) :
    RT_ALIGN m A = m := by
  obtain ⟨k, rfl⟩ := hdvd
  unfold RT_ALIGN
  have h1 : A * k + A - 1 = A * k + (A - 1) := by omega
  rw [h1, Nat.mul_add_div hA, Nat.div_eq_of_lt (by omega), Nat.add_zero,
    Nat.mul_comm]

theorem normSize_idem (A sz : Nat) (hA12 : A ∣ RT_MEMHEAP_MINIALLOC) :
    normSize A (normSize A sz) = normSize A sz := by
  have hA : 0 < A := Nat.pos_of_dvd_of_pos hA12 (by decide)
  have h12 : RT_MEMHEAP_MINIALLOC ≤ normSize A sz := Nat.le_max_right _ _
  conv_lhs => rw [normSize, RT_ALIGN_of_dvd A _ hA (dvd_normSize_self A sz hA12)]
  omega

/-- C4 (amended): when `RT_ALIGN_SIZE` divides `RT_MEMHEAP_MINIALLOC` (as in
the reference configuration `A = 4`), `rt_memheap_realloc(heap, NULL, n)` for
every `n > 0` returns the same result and produces the same heap state as
`rt_memheap_alloc(heap, n)`; and for every pointer `p`,
`rt_memheap_realloc(heap, p, 0)` frees `p` (exactly the state produced by
`rt_memheap_free(p)`) and returns `NULL`.  The original claim quantified the
first identity over every size `n`; at `n = 0` the zero-size test precedes
the NULL test, so `realloc(NULL, 0)` is a no-op returning NULL while
`alloc(0)` allocates a minimum-size block. -/
theorem c4_realloc_degenerate (A H : Nat) (h : Heap) (p sz : Nat)
    (hA12 : A ∣ RT_MEMHEAP_MINIALLOC) (hsz : 0 < sz) :
    rt_memheap_realloc A H h 0 sz = rt_memheap_alloc A H h sz ∧
    rt_memheap_realloc A H h p 0 = (rt_memheap_free A H h p, none) := by
  constructor
  · unfold rt_memheap_realloc
    dsimp only
    rw [if_neg (by omega), if_pos rfl]
    unfold rt_memheap_alloc
    dsimp only
    rw [normSize_idem A sz hA12]
  · unfold rt_memheap_realloc
    rw [if_pos rfl]

theorem c4_realloc_degenerate_witness :
    (4 : Nat) ∣ RT_MEMHEAP_MINIALLOC ∧ 0 < 5 ∧
    (rt_memheap_realloc 4 12 (rt_memheap_init 4 12 1024 (fun _ => 0)) 0 5 =
        rt_memheap_alloc 4 12 (rt_memheap_init 4 12 1024 (fun _ => 0)) 5 ∧
      rt_memheap_realloc 4 12 (rt_memheap_init 4 12 1024 (fun _ => 0)) 77 0 =
        (rt_memheap_free 4 12 (rt_memheap_init 4 12 1024 (fun _ => 0)) 77, none)) :=
  ⟨by decide, by decide,
    c4_realloc_degenerate 4 12 (rt_memheap_init 4 12 1024 (fun _ => 0)) 77 5
      (by decide) (by decide)⟩

/-- C4 counterexample: at size `n = 0` the two calls differ, because
`rt_memheap_realloc` tests `newsize == 0` before `ptr == RT_NULL`:
`realloc(NULL, 0)` returns NULL leaving `available_size` at 1000, while
`alloc(0)` normalises the request to `RT_MEMHEAP_MINIALLOC` and returns a
block, dropping `available_size` to 976. -/
theorem c4_counterexample :
    (rt_memheap_realloc 4 12 (rt_memheap_init 4 12 1024 (fun _ => 0)) 0 0).2 = none ∧
    (rt_memheap_alloc 4 12 (rt_memheap_init 4 12 1024 (fun _ => 0)) 0).2 = some 12 ∧
    (rt_memheap_realloc 4 12 (rt_memheap_init 4 12 1024 (fun _ => 0)) 0 0).1.available = 1000 ∧
    (rt_memheap_alloc 4 12 (rt_memheap_init 4 12 1024 (fun _ => 0)) 0).1.available = 976 := by
  refine ⟨?_, ?_, ?_, ?_⟩ <;> decide

/-- C7: Early reject — whenever the normalised request size is at least
`heap->available_size` (the source tests `size < available_size` with strict
`<`), `rt_memheap_alloc` returns `RT_NULL` and leaves the heap state
unchanged; in particular a request exactly equal to `available_size` is
rejected before any free-list search. -/
theorem c7_early_reject (A H : Nat) (h : Heap) (sz : Nat)
    (hge : h.available ≤ normSize A sz) :
    rt_memheap_alloc A H h sz = (h, none) := by
  unfold rt_memheap_alloc
  dsimp only
  rw [if_neg (by omega)]

theorem c7_early_reject_witness :
    (rt_memheap_init 4 12 1024 (fun _ => 0)).available ≤ normSize 4 1000 ∧
    rt_memheap_alloc 4 12 (rt_memheap_init 4 12 1024 (fun _ => 0)) 1000 =
      (rt_memheap_init 4 12 1024 (fun _ => 0), none) :=
  ⟨by decide, c7_early_reject 4 12 (rt_memheap_init 4 12 1024 (fun _ => 0)) 1000 (by decide)⟩

/-- C9 (amended): Init postcondition — after `rt_memheap_init` over a region
of `S` bytes whose aligned size holds the two initial headers:
`pool_size = RT_ALIGN_DOWN(S, A)`, `available_size = pool_size - 2 H`,
`max_used_size = 2 H`, the region holds exactly a FREE block at offset 0 of
payload `available_size` followed by the zero-payload USED tailer at offset
`H + available_size`, and the free list holds exactly the FREE block.  With
`S = 1024`, `H = 12` the tailer sits at `start + 1012 = start + 0x3F4` (the
claim's example said `start + 0x404`). -/
theorem c9_init_postcondition (A H S : Nat) (m0 : Mem)
    (hA : 0 < A) (hH : 0 < H) (hS : 2 * H ≤ RT_ALIGN_DOWN S A) :
    (rt_memheap_init A H S m0).poolSize = RT_ALIGN_DOWN S A ∧
    (rt_memheap_init A H S m0).available = RT_ALIGN_DOWN S A - 2 * H ∧
    (rt_memheap_init A H S m0).maxUsed = 2 * H ∧
    (rt_memheap_init A H S m0).blocks =
      [⟨false, RT_ALIGN_DOWN S A - 2 * H⟩, ⟨true, 0⟩] ∧
    (rt_memheap_init A H S m0).freeList = [0] ∧
    withAddrs H (rt_memheap_init A H S m0).blocks 0 =
      [(0, ⟨false, RT_ALIGN_DOWN S A - 2 * H⟩),
        (H + (RT_ALIGN_DOWN S A - 2 * H), ⟨true, 0⟩)] := by
  unfold rt_memheap_init
  refine ⟨rfl, rfl, by dsimp only; omega, rfl, rfl, ?_⟩
  simp [withAddrs, blkBytes]

theorem c9_init_postcondition_witness :
    0 < 4 ∧ 0 < 12 ∧ 2 * 12 ≤ RT_ALIGN_DOWN 1024 4 ∧
    ((rt_memheap_init 4 12 1024 (fun _ => 0)).poolSize = RT_ALIGN_DOWN 1024 4 ∧
      (rt_memheap_init 4 12 1024 (fun _ => 0)).available = RT_ALIGN_DOWN 1024 4 - 2 * 12 ∧
      (rt_memheap_init 4 12 1024 (fun _ => 0)).maxUsed = 2 * 12 ∧
      (rt_memheap_init 4 12 1024 (fun _ => 0)).blocks =
        [⟨false, RT_ALIGN_DOWN 1024 4 - 2 * 12⟩, ⟨true, 0⟩] ∧
      (rt_memheap_init 4 12 1024 (fun _ => 0)).freeList = [0] ∧
      withAddrs 12 (rt_memheap_init 4 12 1024 (fun _ => 0)).blocks 0 =
        [(0, ⟨false, RT_ALIGN_DOWN 1024 4 - 2 * 12⟩),
          (12 + (RT_ALIGN_DOWN 1024 4 - 2 * 12), ⟨true, 0⟩)]) :=
  ⟨by decide, by decide, by decide,
    c9_init_postcondition 4 12 1024 (fun _ => 0) (by decide) (by decide) (by decide)⟩

/-- C9 counterexample: in the claim's own example (`S = 1024`, `H = 12`,
`A = 4`) the tailer lies at offset `12 + 1000 = 1012 = 0x3F4`, not at
`0x404 = 1028` as the claim's example states. -/
theorem c9_counterexample :
    withAddrs 12 (rt_memheap_init 4 12 1024 (fun _ => 0)).blocks 0 =
      [(0, ⟨false, 1000⟩), (1012, ⟨true, 0⟩)] ∧ (1012 : Nat) ≠ 0x404 := by
  refine ⟨?_, ?_⟩ <;> decide

/-- C10: `rt_calloc` computes `total_size = count * size` in `w`-bit
`rt_size_t` arithmetic with no overflow check; whenever the mathematical
product reaches `2 ^ w` the call requests, allocates and zero-fills only
`(count * size) mod 2 ^ w` bytes — behaving exactly like a `calloc` of the
wrapped size, which is strictly smaller than the requested number of
bytes, so it can return a non-NULL pointer to a block far smaller than
`count * size`. -/
theorem c10_calloc_overflow (A H w : Nat) (h : Heap) (count size : Nat)
    (hov : 2 ^ w ≤ count * size) :
    rt_calloc A H w h count size = rt_calloc A H w h 1 ((count * size) % 2 ^ w) ∧
    (count * size) % 2 ^ w < count * size := by
  have h2 : 0 < 2 ^ w := Nat.pos_pow_of_pos w (by decide)
  constructor
  · unfold rt_calloc
    rw [Nat.one_mul, Nat.mod_mod_of_dvd _ dvd_rfl]
  · have := Nat.mod_lt (count * size) h2
    omega

theorem c10_calloc_overflow_witness :
    2 ^ 32 ≤ 2 ^ 31 * 2 ∧
    (rt_calloc 4 12 32 (rt_memheap_init 4 12 1024 (fun _ => 0)) (2 ^ 31) 2 =
        rt_calloc 4 12 32 (rt_memheap_init 4 12 1024 (fun _ => 0)) 1 ((2 ^ 31 * 2) % 2 ^ 32) ∧
      (2 ^ 31 * 2) % 2 ^ 32 < 2 ^ 31 * 2) ∧
    (rt_calloc 4 12 32 (rt_memheap_init 4 12 1024 (fun _ => 0)) (2 ^ 31) 2).2 = some 12 ∧
    MEMITEM_SIZE 12 (rt_calloc 4 12 32 (rt_memheap_init 4 12 1024 (fun _ => 0)) (2 ^ 31) 2).1.blocks 0 = 12 :=
  ⟨by decide,
    c10_calloc_overflow 4 12 32 (rt_memheap_init 4 12 1024 (fun _ => 0)) (2 ^ 31) 2 (by decide),
    by decide, by decide⟩


/-- C5: In-place grow — for a pool with a USED block of payload `old` at
payload pointer `p` whose physical successor is FREE with payload `f`, and a
nonzero request normalising to `n > old` with `f + old > n +
RT_MEMHEAP_MINIALLOC` (strict), `rt_memheap_realloc` returns `p` itself (no
copy, payload address unchanged) and produces exactly the state in which a
new FREE block at `p + n` replaces the successor, spliced into the physical
list and inserted at the free-list head (the successor's address `p + old`
leaving the free list), with `available_size` decreased by exactly
`n - old`. -/
theorem c5_inplace_grow (A H : Nat) (h : Heap) (L1 L2 : List Blk)
    (old f p sz : Nat)
    (hwf : Wf A H h)
    (hbl : h.blocks = L1 ++ ⟨true, old⟩ :: ⟨false, f⟩ :: L2)
    (hp : p = sizeOfBlocks H L1 + H)
    (hsz : sz ≠ 0)
    (hgrow : old < normSize A sz)
    (hroom : normSize A sz + RT_MEMHEAP_MINIALLOC < f + old) :
    rt_memheap_realloc A H h p sz =
      ({ blocks := L1 ++ [⟨true, normSize A sz⟩, ⟨false, old + f - normSize A sz⟩] ++ L2
         freeList := (p + normSize A sz) :: h.freeList.erase (p + old)
         available := h.available - (normSize A sz - old)
         maxUsed := max h.maxUsed (h.poolSize - (h.available - (normSize A sz - old)))
         poolSize := h.poolSize
         mem := clobberStep H h.blocks
           (L1 ++ [⟨true, normSize A sz⟩, ⟨false, old + f - normSize A sz⟩] ++ L2) h.mem },
        some p) ∧
    (p + normSize A sz, ⟨false, old + f - normSize A sz⟩) ∈
      withAddrs H (L1 ++ [⟨true, normSize A sz⟩, ⟨false, old + f - normSize A sz⟩] ++ L2) 0 ∧
    h.available - (normSize A sz - old) + (normSize A sz - old) = h.available := by
  have hwfc := hwf
  obtain ⟨hA, hH, hAH, hne, hlast, hchain, hacc, hnd, h4a, h4b, hdvd⟩ := hwfc
  have hidx : idxOfAddr H h.blocks (p - H) = some L1.length := by
    rw [hbl, show p - H = sizeOfBlocks H L1 from by omega]
    exact idxOfAddr_decomp H L1 _ _ hH
  have hgb : getBlk h.blocks L1.length = ⟨true, old⟩ := by
    rw [hbl]; exact getBlk_decomp _ _ _
  have hgd : getBlk h.blocks (L1.length + 1) = ⟨false, f⟩ := by
    rw [hbl]; exact getBlk_decomp2 _ _ _ _
  have hlenb : h.blocks.length = L1.length + 2 + L2.length := by
    rw [hbl]; simp; omega
  have htake : h.blocks.take L1.length = L1 := by
    rw [hbl]; exact take_decomp _ _ _
  have hdrop : h.blocks.drop (L1.length + 2) = L2 := by
    rw [hbl]; exact drop_decomp2 _ _ _ _
  have havail : f ≤ h.available ∧ normSize A sz - old ≤ h.available := by
    rw [hacc, hbl, freeSum_append, freeSum_cons, freeSum_cons]
    simp
    omega
  refine ⟨?_, ?_, by omega⟩
  · unfold rt_memheap_realloc
    dsimp only
    rw [if_neg hsz, if_neg (show ¬ p = 0 from by omega),
      if_neg (show ¬ p < H from by omega)]
    split
    · rename_i heq
      rw [hidx] at heq
      cases heq
    · rename_i i heq
      rw [hidx] at heq
      injection heq with hi
      subst hi
      rw [hgb, hgd, htake, hdrop]
      rw [if_pos ⟨rfl, by omega⟩, if_pos hgrow, if_pos ⟨rfl, hroom⟩]
  · refine mem_withAddrs.mpr ⟨L1 ++ [⟨true, normSize A sz⟩], L2, by simp, ?_⟩
    rw [sizeOfBlocks_append]
    simp only [sizeOfBlocks_cons, sizeOfBlocks_nil, blkBytes]
    omega


set_option maxHeartbeats 1000000 in
theorem c5_inplace_grow_witness :
    Wf 4 12 (rt_memheap_alloc 4 12 (rt_memheap_init 4 12 1024 (fun _ => 0)) 100).1 ∧
    (rt_memheap_alloc 4 12 (rt_memheap_init 4 12 1024 (fun _ => 0)) 100).1.blocks =
      [] ++ ⟨true, 100⟩ :: ⟨false, 888⟩ :: [⟨true, 0⟩] ∧
    (12 : Nat) = sizeOfBlocks 12 [] + 12 ∧
    (150 : Nat) ≠ 0 ∧
    100 < normSize 4 150 ∧
    normSize 4 150 + RT_MEMHEAP_MINIALLOC < 888 + 100 ∧
    (rt_memheap_realloc 4 12
        (rt_memheap_alloc 4 12 (rt_memheap_init 4 12 1024 (fun _ => 0)) 100).1 12 150).2 =
      some 12 ∧
    (rt_memheap_realloc 4 12
        (rt_memheap_alloc 4 12 (rt_memheap_init 4 12 1024 (fun _ => 0)) 100).1 12 150).1.available =
      836 ∧
    (rt_memheap_realloc 4 12
        (rt_memheap_alloc 4 12 (rt_memheap_init 4 12 1024 (fun _ => 0)) 100).1 12 150).1.blocks =
      [⟨true, 152⟩, ⟨false, 836⟩, ⟨true, 0⟩] :=
  have hthm := c5_inplace_grow 4 12
    (rt_memheap_alloc 4 12 (rt_memheap_init 4 12 1024 (fun _ => 0)) 100).1
    [] [⟨true, 0⟩] 100 888 12 150
    (wf_alloc 4 12 (rt_memheap_init 4 12 1024 (fun _ => 0)) 100
      (wf_init 4 12 1024 (fun _ => 0) (by decide) (by decide) (by decide)))
    (by decide) (by decide) (by decide) (by decide) (by decide)
  ⟨wf_alloc 4 12 (rt_memheap_init 4 12 1024 (fun _ => 0)) 100
      (wf_init 4 12 1024 (fun _ => 0) (by decide) (by decide) (by decide)), by decide, by decide, by decide, by decide, by decide,
    by rw [hthm.1], by rw [hthm.1]; decide, by rw [hthm.1]; decide⟩



/-- C3 (amended): Shrink split threshold — for a USED block of payload `old`
at payload pointer `p` and a nonzero request normalising to `n ≤ old`,
`rt_memheap_realloc` returns `p`, and the heap is unchanged exactly when
`old - n ≤ H + RT_MEMHEAP_MINIALLOC` (the source tests `newsize +
RT_MEMHEAP_SIZE + RT_MEMHEAP_MINIALLOC >= oldsize`, so at `old - n = H +
RT_MEMHEAP_MINIALLOC` no split happens, contrary to the claim's strict `<`
threshold).  For `old - n > H + RT_MEMHEAP_MINIALLOC` a FREE block is spliced
in at `p + n`: if the physical successor is USED the new block has payload
`old - n - H` and `available_size` grows by exactly that payload; if the
successor is FREE the two are coalesced into payload `old - n + nb.size` and
the net growth of `available_size` is `old - n`. -/
theorem c3_shrink_threshold (A H : Nat) (h : Heap) (L1 L2 : List Blk)
    (nb : Blk) (old p sz : Nat)
    (hwf : Wf A H h)
    (hbl : h.blocks = L1 ++ ⟨true, old⟩ :: nb :: L2)
    (hp : p = sizeOfBlocks H L1 + H)
    (hsz : sz ≠ 0)
    (hle : normSize A sz ≤ old) :
    (rt_memheap_realloc A H h p sz).2 = some p ∧
    (rt_memheap_realloc A H h p sz = (h, some p) ↔
      old ≤ normSize A sz + H + RT_MEMHEAP_MINIALLOC) ∧
    (normSize A sz + H + RT_MEMHEAP_MINIALLOC < old → nb.used = true →
      rt_memheap_realloc A H h p sz =
        ({ blocks := L1 ++ [⟨true, normSize A sz⟩,
             ⟨false, old - normSize A sz - H⟩] ++ (nb :: L2)
           freeList := (p + normSize A sz) :: h.freeList
           available := h.available + (old - normSize A sz - H)
           maxUsed := h.maxUsed
           poolSize := h.poolSize
           mem := clobberStep H h.blocks
             (L1 ++ [⟨true, normSize A sz⟩,
               ⟨false, old - normSize A sz - H⟩] ++ (nb :: L2)) h.mem },
          some p)) ∧
    (normSize A sz + H + RT_MEMHEAP_MINIALLOC < old → nb.used = false →
      rt_memheap_realloc A H h p sz =
        ({ blocks := L1 ++ [⟨true, normSize A sz⟩,
             ⟨false, old - normSize A sz + nb.size⟩] ++ L2
           freeList := (p + normSize A sz) :: h.freeList.erase (p + old)
           available := h.available - nb.size + (old - normSize A sz + nb.size)
           maxUsed := h.maxUsed
           poolSize := h.poolSize
           mem := clobberStep H h.blocks
             (L1 ++ [⟨true, normSize A sz⟩,
               ⟨false, old - normSize A sz + nb.size⟩] ++ L2) h.mem },
          some p) ∧
      h.available - nb.size + (old - normSize A sz + nb.size) =
        h.available + (old - normSize A sz)) := by
  have hwfc := hwf
  obtain ⟨hA, hH, hAH, hne, hlast, hchain, hacc, hnd, h4a, h4b, hdvd⟩ := hwfc
  have hidx : idxOfAddr H h.blocks (p - H) = some L1.length := by
    rw [hbl, show p - H = sizeOfBlocks H L1 from by omega]
    exact idxOfAddr_decomp H L1 _ _ hH
  have hgb : getBlk h.blocks L1.length = ⟨true, old⟩ := by
    rw [hbl]; exact getBlk_decomp _ _ _
  have hgd : getBlk h.blocks (L1.length + 1) = nb := by
    rw [hbl]; exact getBlk_decomp2 _ _ _ _
  have hlenb : h.blocks.length = L1.length + 2 + L2.length := by
    rw [hbl]; simp; omega
  have htake : h.blocks.take L1.length = L1 := by
    rw [hbl]; exact take_decomp _ _ _
  have hdropn : h.blocks.drop (L1.length + 1) = nb :: L2 := by
    rw [hbl]; exact drop_decomp _ _ _
  have hdrop2 : h.blocks.drop (L1.length + 2) = L2 := by
    rw [hbl]; exact drop_decomp2 _ _ _ _
  have hnbsz : (if nb.used then 0 else nb.size) ≤ h.available := by
    rw [hacc, hbl, freeSum_append, freeSum_cons, freeSum_cons]
    simp
    omega
  have hred : rt_memheap_realloc A H h p sz =
      (if old ≤ normSize A sz + H + RT_MEMHEAP_MINIALLOC then (h, some p)
       else if nb.used = false then
        ({ blocks := L1 ++ [⟨true, normSize A sz⟩,
             ⟨false, old - normSize A sz + nb.size⟩] ++ L2
           freeList := (p + normSize A sz) :: h.freeList.erase (p + old)
           available := h.available - nb.size + (old - normSize A sz + nb.size)
           maxUsed := h.maxUsed
           poolSize := h.poolSize
           mem := clobberStep H h.blocks
             (L1 ++ [⟨true, normSize A sz⟩,
               ⟨false, old - normSize A sz + nb.size⟩] ++ L2) h.mem },
          some p)
       else
        ({ blocks := L1 ++ [⟨true, normSize A sz⟩,
             ⟨false, old - normSize A sz - H⟩] ++ (nb :: L2)
           freeList := (p + normSize A sz) :: h.freeList
           available := h.available + (old - normSize A sz - H)
           maxUsed := h.maxUsed
           poolSize := h.poolSize
           mem := clobberStep H h.blocks
             (L1 ++ [⟨true, normSize A sz⟩,
               ⟨false, old - normSize A sz - H⟩] ++ (nb :: L2)) h.mem },
          some p)) := by
    unfold rt_memheap_realloc
    dsimp only
    rw [if_neg hsz, if_neg (show ¬ p = 0 from by omega),
      if_neg (show ¬ p < H from by omega)]
    split
    · rename_i heq
      rw [hidx] at heq
      cases heq
    · rename_i i heq
      rw [hidx] at heq
      injection heq with hi
      subst hi
      rw [hgb, hgd, htake, hdropn, hdrop2]
      rw [if_pos ⟨rfl, by omega⟩,
        if_neg (show ¬ (Blk.mk true old).size < normSize A sz from by simp; omega)]
  refine ⟨?_, ⟨fun heq => ?_, fun hle2 => by rw [hred, if_pos hle2]⟩, ?_, ?_⟩
  · rw [hred]
    by_cases h1 : old ≤ normSize A sz + H + RT_MEMHEAP_MINIALLOC
    · rw [if_pos h1]
    · rw [if_neg h1]
      by_cases h2 : nb.used = false
      · rw [if_pos h2]
      · rw [if_neg h2]
  · by_contra hgt
    rw [hred, if_neg hgt] at heq
    push_neg at hgt
    by_cases h2 : nb.used = false
    · rw [if_pos h2] at heq
      have hav := congrArg (fun x => x.1.available) heq
      simp only at hav
      simp only [h2, if_neg (Bool.false_ne_true)] at hnbsz
      omega
    · rw [if_neg h2] at heq
      have hav := congrArg (fun x => x.1.available) heq
      simp only at hav
      omega
  · intro hgt hnb
    rw [hred, if_neg (by omega), if_neg (by rw [hnb]; decide)]
  · intro hgt hnb
    exact ⟨by rw [hred, if_neg (by omega), if_pos hnb],
      by simp only [hnb, if_neg (Bool.false_ne_true)] at hnbsz; omega⟩

/-- A state at the split boundary `old - n = H + RT_MEMHEAP_MINIALLOC`
(old = 36, n = 12, H = 12): the source's `>=` test returns the heap
unchanged, whereas the claim's `old - n >= H + MIN_PAYLOAD` predicts a
split. -/
theorem c3_counterexample :
    rt_memheap_realloc 4 12
        (rt_memheap_alloc 4 12 (rt_memheap_init 4 12 1024 (fun _ => 0)) 36).1 12 12 =
      ((rt_memheap_alloc 4 12 (rt_memheap_init 4 12 1024 (fun _ => 0)) 36).1, some 12) ∧
    (rt_memheap_alloc 4 12 (rt_memheap_init 4 12 1024 (fun _ => 0)) 36).1.blocks =
      [⟨true, 36⟩, ⟨false, 952⟩, ⟨true, 0⟩] ∧
    normSize 4 12 = 12 ∧
    36 - 12 = 12 + RT_MEMHEAP_MINIALLOC :=
  ⟨rfl, by decide, by decide, by decide⟩

set_option maxHeartbeats 1000000 in
theorem c3_shrink_threshold_witness :
    Wf 4 12 (rt_memheap_alloc 4 12 (rt_memheap_init 4 12 1024 (fun _ => 0)) 100).1 ∧
    (rt_memheap_alloc 4 12 (rt_memheap_init 4 12 1024 (fun _ => 0)) 100).1.blocks =
      [] ++ ⟨true, 100⟩ :: ⟨false, 888⟩ :: [⟨true, 0⟩] ∧
    (12 : Nat) = sizeOfBlocks 12 [] + 12 ∧
    (12 : Nat) ≠ 0 ∧
    normSize 4 12 ≤ 100 ∧
    normSize 4 12 + 12 + RT_MEMHEAP_MINIALLOC < 100 ∧
    (rt_memheap_realloc 4 12
        (rt_memheap_alloc 4 12 (rt_memheap_init 4 12 1024 (fun _ => 0)) 100).1 12 12).2 =
      some 12 ∧
    (rt_memheap_realloc 4 12
        (rt_memheap_alloc 4 12 (rt_memheap_init 4 12 1024 (fun _ => 0)) 100).1 12 12).1.blocks =
      [⟨true, 12⟩, ⟨false, 976⟩, ⟨true, 0⟩] ∧
    (rt_memheap_realloc 4 12
        (rt_memheap_alloc 4 12 (rt_memheap_init 4 12 1024 (fun _ => 0)) 100).1 12 12).1.available =
      976 :=
  have hthm := c3_shrink_threshold 4 12
    (rt_memheap_alloc 4 12 (rt_memheap_init 4 12 1024 (fun _ => 0)) 100).1
    [] [⟨true, 0⟩] ⟨false, 888⟩ 100 12 12
    (wf_alloc 4 12 (rt_memheap_init 4 12 1024 (fun _ => 0)) 100
      (wf_init 4 12 1024 (fun _ => 0) (by decide) (by decide) (by decide)))
    (by decide) (by decide) (by decide) (by decide)
  ⟨wf_alloc 4 12 (rt_memheap_init 4 12 1024 (fun _ => 0)) 100
      (wf_init 4 12 1024 (fun _ => 0) (by decide) (by decide) (by decide)),
    by decide, by decide, by decide, by decide, by decide,
    hthm.1,
    by rw [(hthm.2.2.2 (by decide) (by decide)).1]; decide,
    by rw [(hthm.2.2.2 (by decide) (by decide)).1]; decide⟩



/-- `n ≤ RT_ALIGN n A` whenever `0 < A`: rounding up to a multiple never
shrinks. -/
theorem le_RT_ALIGN (n A : Nat) (hA : 0 < A) : n ≤ RT_ALIGN n A := by
  unfold RT_ALIGN
  have h1 := Nat.div_add_mod (n + A - 1) A
  have h2 := Nat.mod_lt (n + A - 1) hA
  have h3 : (n + A - 1) / A * A = A * ((n + A - 1) / A) := Nat.mul_comm _ _
  omega

/-- If `A` divides the header size and every payload size in `l`, it divides
the total byte extent of `l`. -/
theorem dvd_sizeOfBlocks {A H : Nat} {l : List Blk} (hH : A ∣ H)
    (hall : ∀ b ∈ l, A ∣ b.size) : A ∣ sizeOfBlocks H l := by
  induction l with
  | nil => simp [sizeOfBlocks]
  | cons b rest ih =>
    rw [sizeOfBlocks_cons]
    exact Nat.dvd_add (Nat.dvd_add hH (hall b (by simp)))
      (ih fun c hc => hall c (by simp [hc]))

/-- Characterisation of a successful `rt_memheap_alloc` on a well-formed
pool: the pointer is the header address of a FREE block of payload `s ≥
normSize A sz` plus `H`, and the result state is exactly the split state
(when `s ≥ normSize + H + MIN`) or the whole-block state. -/
theorem alloc_some_spec {A H : Nat} {h : Heap} {sz : Nat} {h' : Heap} {p : Nat}
    (hwf : Wf A H h)
    (hcall : rt_memheap_alloc A H h sz = (h', some p)) :
    ∃ L1 s L2, h.blocks = L1 ++ ⟨false, s⟩ :: L2 ∧
      p = sizeOfBlocks H L1 + H ∧
      normSize A sz ≤ s ∧
      normSize A sz < h.available ∧
      ((normSize A sz + H + RT_MEMHEAP_MINIALLOC ≤ s ∧
        h' = { blocks := L1 ++ [⟨true, normSize A sz⟩,
                 ⟨false, s - normSize A sz - H⟩] ++ L2
               freeList := (sizeOfBlocks H L1 + normSize A sz + H) ::
                 h.freeList.erase (sizeOfBlocks H L1)
               available := h.available - normSize A sz - H
               maxUsed := max h.maxUsed
                 (h.poolSize - (h.available - normSize A sz - H))
               poolSize := h.poolSize
               mem := clobberStep H h.blocks
                 (L1 ++ [⟨true, normSize A sz⟩,
                   ⟨false, s - normSize A sz - H⟩] ++ L2) h.mem }) ∨
       (s < normSize A sz + H + RT_MEMHEAP_MINIALLOC ∧
        h' = { blocks := L1 ++ [⟨true, s⟩] ++ L2
               freeList := h.freeList.erase (sizeOfBlocks H L1)
               available := h.available - s
               maxUsed := max h.maxUsed (h.poolSize - (h.available - s))
               poolSize := h.poolSize
               mem := clobberStep H h.blocks
                 (L1 ++ [⟨true, s⟩] ++ L2) h.mem })) := by
  have hwfc := hwf
  obtain ⟨hA, hH, hAH, hne, hlast, hchain, hacc, hnd, h4a, h4b, hdvd⟩ := hwfc
  unfold rt_memheap_alloc at hcall
  dsimp only at hcall
  split at hcall
  case isFalse => simp at hcall
  case isTrue hlt =>
  split at hcall
  case h_1 => simp at hcall
  case h_2 a hfind =>
  have ha_mem : a ∈ h.freeList := List.mem_of_find?_eq_some hfind
  have ha_fit : normSize A sz ≤ MEMITEM_SIZE H h.blocks a := by
    have := List.find?_some hfind
    simpa using this
  obtain ⟨⟨x, b⟩, hpr, hx, hbu⟩ := h4a a ha_mem
  simp only at hx hbu
  subst hx
  obtain ⟨L1, L2, hbl, haddr⟩ := mem_withAddrs.mp hpr
  rw [Nat.zero_add] at haddr
  subst haddr
  obtain ⟨bu, s⟩ := b
  simp only at hbu
  subst hbu
  have hidx2 : idxOfAddr H h.blocks (sizeOfBlocks H L1) = some L1.length := by
    rw [hbl]; exact idxOfAddr_decomp H L1 _ _ hH
  have hgb : getBlk h.blocks L1.length = ⟨false, s⟩ := by
    rw [hbl]; exact getBlk_decomp _ _ _
  have htake : h.blocks.take L1.length = L1 := by
    rw [hbl]; exact take_decomp _ _ _
  have hdrop : h.blocks.drop (L1.length + 1) = L2 := by
    rw [hbl]; exact drop_decomp _ _ _
  have hms : MEMITEM_SIZE H h.blocks (sizeOfBlocks H L1) = s := by
    unfold MEMITEM_SIZE
    rw [hidx2]
    show (getBlk h.blocks L1.length).size = s
    rw [hgb]
  rw [hms] at ha_fit
  split at hcall
  case h_1 heq => rw [hidx2] at heq; cases heq
  case h_2 i heq =>
  rw [hidx2] at heq
  injection heq with hi
  subst hi
  rw [hgb, htake, hdrop] at hcall
  split at hcall
  case isTrue hsp =>
    have h1 := congrArg Prod.fst hcall
    have h2 := congrArg Prod.snd hcall
    simp only at h1 h2
    injection h2 with h2
    exact ⟨L1, s, L2, hbl, by omega, ha_fit, hlt,
      Or.inl ⟨by simpa using hsp, by rw [← h1]⟩⟩
  case isFalse hsp =>
    have h1 := congrArg Prod.fst hcall
    have h2 := congrArg Prod.snd hcall
    simp only at h1 h2
    injection h2 with h2
    exact ⟨L1, s, L2, hbl, by omega, ha_fit, hlt,
      Or.inr ⟨by simpa using Nat.lt_of_not_le hsp, by rw [← h1]⟩⟩

/-- C6 (amended): Allocation postcondition — on a well-formed pool whose
alignment `A` divides `RT_MEMHEAP_MINIALLOC` (as in the reference
configuration `A = 4`; for other `A` the alignment part fails, see the
counterexample), a successful `rt_memheap_alloc` returns `p` that is the
selected block's header address plus `H`, is `A`-aligned, and satisfies
`p + sz ≤` the address of the block's physical successor: the block is USED
with payload capacity at least the normalised request `normSize A sz ≥ sz`. -/
theorem c6_alloc_postcondition (A H : Nat) (h : Heap) (sz p : Nat)
    (hwf : Wf A H h)
    (hA12 : A ∣ RT_MEMHEAP_MINIALLOC)
    (hcall : (rt_memheap_alloc A H h sz).2 = some p) :
    A ∣ p ∧
    sz ≤ normSize A sz ∧
    ∃ L1 b L2, (rt_memheap_alloc A H h sz).1.blocks = L1 ++ b :: L2 ∧
      b.used = true ∧
      p = sizeOfBlocks H L1 + H ∧
      normSize A sz ≤ b.size ∧
      p + sz ≤ sizeOfBlocks H L1 + blkBytes H b := by
  have hwfc := hwf
  obtain ⟨hA, hH, hAH, hne, hlast, hchain, hacc, hnd, h4a, h4b, hdvd⟩ := hwfc
  have hgcd : Nat.gcd A RT_MEMHEAP_MINIALLOC = A := Nat.gcd_eq_left hA12
  have hcall' : rt_memheap_alloc A H h sz =
      ((rt_memheap_alloc A H h sz).1, some p) := by
    rw [← hcall]
  obtain ⟨L1, s, L2, hbl, hp, hfit, hlt, hcase⟩ := alloc_some_spec hwf hcall'
  have hdvdL1 : A ∣ sizeOfBlocks H L1 := by
    refine dvd_sizeOfBlocks hAH fun b hb => ?_
    rw [← hgcd]
    exact hdvd b (by rw [hbl]; exact List.mem_append_left _ hb)
  have hsz_le : sz ≤ normSize A sz :=
    le_trans (le_RT_ALIGN sz A hA) (Nat.le_max_left _ _)
  refine ⟨by rw [hp]; exact Nat.dvd_add hdvdL1 hAH, hsz_le, ?_⟩
  rcases hcase with ⟨hsp, hres⟩ | ⟨hsp, hres⟩
  · refine ⟨L1, ⟨true, normSize A sz⟩, ⟨false, s - normSize A sz - H⟩ :: L2,
      by rw [hres]; simp, rfl, hp, Nat.le_refl _, ?_⟩
    unfold blkBytes
    simp only
    omega
  · refine ⟨L1, ⟨true, s⟩, L2, by rw [hres]; simp, rfl, hp, hfit, ?_⟩
    unfold blkBytes
    simp only
    omega

/-- With `A = 8` (which does not divide `RT_MEMHEAP_MINIALLOC = 12`,
`H = RT_ALIGN(sizeof item, 8) = 24`), the second allocation returns pointer
60, which is not 8-aligned: the claim's unconditional alignment part fails
because block payloads are only kept multiples of `gcd A 12 = 4`. -/
theorem c6_counterexample :
    (rt_memheap_alloc 8 24
        (rt_memheap_alloc 8 24 (rt_memheap_init 8 24 1024 (fun _ => 0)) 1).1 1).2 =
      some 60 ∧
    ¬ (8 ∣ 60) := by
  refine ⟨by decide, by decide⟩

set_option maxHeartbeats 1000000 in
theorem c6_alloc_postcondition_witness :
    Wf 4 12 (rt_memheap_init 4 12 1024 (fun _ => 0)) ∧
    (4 : Nat) ∣ RT_MEMHEAP_MINIALLOC ∧
    (rt_memheap_alloc 4 12 (rt_memheap_init 4 12 1024 (fun _ => 0)) 100).2 = some 12 ∧
    ((4 : Nat) ∣ 12 ∧
     100 ≤ normSize 4 100 ∧
     ∃ L1 b L2,
       (rt_memheap_alloc 4 12 (rt_memheap_init 4 12 1024 (fun _ => 0)) 100).1.blocks =
         L1 ++ b :: L2 ∧
       b.used = true ∧
       (12 : Nat) = sizeOfBlocks 12 L1 + 12 ∧
       normSize 4 100 ≤ b.size ∧
       12 + 100 ≤ sizeOfBlocks 12 L1 + blkBytes 12 b) :=
  ⟨wf_init 4 12 1024 (fun _ => 0) (by decide) (by decide) (by decide),
   by decide, by decide,
   c6_alloc_postcondition 4 12 (rt_memheap_init 4 12 1024 (fun _ => 0)) 100 12
     (wf_init 4 12 1024 (fun _ => 0) (by decide) (by decide) (by decide))
     (by decide) (by decide)⟩



/-- A byte strictly inside the payload of a block of the list is not a
header byte of any block of the list. -/
theorem payload_not_headerByte {H : Nat} (hH : 0 < H) {l : List Blk} {x y : Nat} {b : Blk}
    (hmem : (x, b) ∈ withAddrs H l 0) (h1 : x + H ≤ y) (h2 : y < x + H + b.size) :
    isHeaderByte H l y = false := by
  unfold isHeaderByte
  rw [List.any_eq_false]
  rintro ⟨z, c⟩ hpr
  simp only [Bool.and_eq_true, decide_eq_true_eq, not_and]
  intro hzy hyz
  have hbb : blkBytes H b = H + b.size := rfl
  have hbc : blkBytes H c = H + c.size := rfl
  rcases Nat.lt_trichotomy z x with hlt | heq | hgt
  · have := withAddrs_no_overlap hH hpr hmem hlt
    omega
  · omega
  · have := withAddrs_no_overlap hH hmem hpr hgt
    omega

/-- A byte that is a header byte of neither the pre- nor the post-surgery
block list is untouched by the conservative header-clobbering step. -/
theorem clobberStep_payload {H : Nat} {pre post : List Blk} {m : Mem} {y : Nat}
    (h1 : isHeaderByte H pre y = false) (h2 : isHeaderByte H post y = false) :
    clobberStep H pre post m y = m y := by
  show (if isHeaderByte H post y then (0 : Nat)
        else if isHeaderByte H pre y then 0 else m y) = m y
  rw [h1, h2]
  simp

/-- Membership in the address-annotated list survives replacing a byte-equal
contiguous segment, provided the pair does not sit inside the replaced
segment. -/
theorem withAddrs_surgery {H : Nat} {L1 mid mid' L2 : List Blk} {x : Nat} {b : Blk}
    (hbytes : sizeOfBlocks H mid' = sizeOfBlocks H mid)
    (hmem : (x, b) ∈ withAddrs H (L1 ++ mid ++ L2) 0)
    (hout : (x, b) ∉ withAddrs H mid (sizeOfBlocks H L1)) :
    (x, b) ∈ withAddrs H (L1 ++ mid' ++ L2) 0 := by
  simp only [withAddrs_append, sizeOfBlocks_append, Nat.zero_add,
    List.mem_append] at hmem ⊢
  rw [hbytes]
  rcases hmem with (hm | hm) | hm
  · exact Or.inl (Or.inl hm)
  · exact absurd hm hout
  · exact Or.inr hm

/-- `rt_memheap_alloc` either leaves the heap untouched or returns a
pointer. -/
theorem alloc_fail_eq {A H : Nat} (h : Heap) (sz : Nat) :
    (rt_memheap_alloc A H h sz).1 = h ∨
      ∃ q, (rt_memheap_alloc A H h sz).2 = some q := by
  unfold rt_memheap_alloc
  dsimp only
  split
  · split
    · exact Or.inl rfl
    · split
      · exact Or.inl rfl
      · split
        · exact Or.inr ⟨_, rfl⟩
        · exact Or.inr ⟨_, rfl⟩
  · exact Or.inl rfl

/-- An allocation never moves a USED block and never writes into its
payload: the block keeps its address, and every payload byte keeps its
value. -/
theorem alloc_used_spec {A H : Nat} {h : Heap} (sz : Nat) (hwf : Wf A H h)
    {x : Nat} {b : Blk} (hmem : (x, b) ∈ withAddrs H h.blocks 0)
    (hused : b.used = true) :
    (x, b) ∈ withAddrs H (rt_memheap_alloc A H h sz).1.blocks 0 ∧
    ∀ y, x + H ≤ y → y < x + H + b.size →
      (rt_memheap_alloc A H h sz).1.mem y = h.mem y := by
  have hH : 0 < H := hwf.2.1
  rcases alloc_fail_eq (A := A) (H := H) h sz with heq | ⟨q, hq⟩
  · rw [heq]
    exact ⟨hmem, fun _ _ _ => rfl⟩
  · have hcall : rt_memheap_alloc A H h sz =
        ((rt_memheap_alloc A H h sz).1, some q) := by
      rw [← hq]
    obtain ⟨La, s, Lb, hbl, hp, hfit, hlt, hcase⟩ := alloc_some_spec hwf hcall
    have hbl' : h.blocks = La ++ [⟨false, s⟩] ++ Lb := by rw [hbl]; simp
    have hmem0 := hmem
    rw [hbl'] at hmem
    have hout : (x, b) ∉ withAddrs H [⟨false, s⟩] (sizeOfBlocks H La) := by
      intro hc
      simp only [withAddrs, List.mem_singleton, Prod.mk.injEq] at hc
      rw [hc.2] at hused
      simp at hused
    rcases hcase with ⟨hsp, hres⟩ | ⟨hsp, hres⟩
    · have hbytes : sizeOfBlocks H
          [(⟨true, normSize A sz⟩ : Blk), ⟨false, s - normSize A sz - H⟩] =
          sizeOfBlocks H [(⟨false, s⟩ : Blk)] := by
        simp only [sizeOfBlocks_cons, sizeOfBlocks_nil, blkBytes]
        omega
      have hmem' := withAddrs_surgery hbytes hmem hout
      rw [hres]
      dsimp only
      refine ⟨hmem', fun y hy1 hy2 => ?_⟩
      refine clobberStep_payload ?_ ?_
      · exact payload_not_headerByte hH hmem0 hy1 hy2
      · exact payload_not_headerByte hH hmem' hy1 hy2
    · have hbytes : sizeOfBlocks H [(⟨true, s⟩ : Blk)] =
          sizeOfBlocks H [(⟨false, s⟩ : Blk)] := by
        simp [sizeOfBlocks_cons, sizeOfBlocks_nil, blkBytes]
      have hmem' := withAddrs_surgery hbytes hmem hout
      rw [hres]
      dsimp only
      refine ⟨hmem', fun y hy1 hy2 => ?_⟩
      refine clobberStep_payload ?_ ?_
      · exact payload_not_headerByte hH hmem0 hy1 hy2
      · exact payload_not_headerByte hH hmem' hy1 hy2



/-- A free never moves any other USED block and never writes into its
payload: a USED block whose payload pointer differs from the freed pointer
keeps its address, and every one of its payload bytes keeps its value. -/
theorem free_used_spec {A H : Nat} {h : Heap} (pf : Nat) (hwf : Wf A H h)
    {x : Nat} {b : Blk} (hmem : (x, b) ∈ withAddrs H h.blocks 0)
    (hused : b.used = true) (hnep : x + H ≠ pf) :
    (x, b) ∈ withAddrs H (rt_memheap_free A H h pf).blocks 0 ∧
    ∀ y, x + H ≤ y → y < x + H + b.size →
      (rt_memheap_free A H h pf).mem y = h.mem y := by
  obtain ⟨hA, hH, hAH, hne, hlast, hchain, hacc, hnd, h4a, h4b, hdvd⟩ := hwf
  unfold rt_memheap_free
  split
  · exact ⟨hmem, fun _ _ _ => rfl⟩
  · split
    · exact ⟨hmem, fun _ _ _ => rfl⟩
    · rename_i hnotlt i heqidx
      dsimp only
      split
      · rename_i hcond
        obtain ⟨hbused, hilen⟩ := hcond
        obtain ⟨M1, fb, M2, hbl, hlen, hszM1⟩ := idxOfAddr_some heqidx
        have hgb : getBlk h.blocks i = fb := by
          rw [hbl, ← hlen]; exact getBlk_decomp M1 M2 fb
        rw [hgb] at hbused
        have hpH : H ≤ pf := by omega
        have hxne : x ≠ sizeOfBlocks H M1 := by
          intro hcx
          exact hnep (by omega)
        have hlenb : h.blocks.length = M1.length + 1 + M2.length := by
          rw [hbl]; simp; omega
        have hM2ne : M2 ≠ [] := by
          intro hcon
          rw [hcon] at hlenb
          simp at hlenb
          omega
        cases M2 with
        | nil => exact absurd rfl hM2ne
        | cons cR M2' =>
        have hgd : getBlk h.blocks (i + 1) = cR := by
          rw [hbl, ← hlen]; exact getBlk_decomp2 M1 M2' fb cR
        have hdropn : h.blocks.drop (i + 1) = cR :: M2' := by
          rw [hbl, ← hlen]; exact drop_decomp M1 (cR :: M2') fb
        have hdrop2 : h.blocks.drop (i + 2) = M2' := by
          rw [hbl, ← hlen]; exact drop_decomp2 M1 M2' fb cR
        have htakei : h.blocks.take i = M1 := by
          rw [hbl, ← hlen]; exact take_decomp M1 (cR :: M2') fb
        split
        · -- left neighbour FREE
          rename_i hleft
          obtain ⟨hipos, hlfree⟩ := hleft
          have hM1ne : M1 ≠ [] := by
            intro hc
            rw [hc] at hlen
            simp at hlen
            omega
          rcases List.eq_nil_or_concat' M1 with hc | ⟨M1', cL, hc⟩
          · exact absurd hc hM1ne
          subst hc
          have hlen' : M1'.length + 1 = i := by
            simp at hlen
            omega
          have hbl' : h.blocks = M1' ++ cL :: fb :: cR :: M2' := by
            rw [hbl]; simp
          have hgc : getBlk h.blocks (i - 1) = cL := by
            rw [hbl', show i - 1 = M1'.length from by omega]
            exact getBlk_decomp M1' (fb :: cR :: M2') cL
          rw [hgc] at hlfree
          have htake : h.blocks.take (i - 1) = M1' := by
            rw [hbl', show i - 1 = M1'.length from by omega]
            exact take_decomp M1' (fb :: cR :: M2') cL
          have hm1 : sizeOfBlocks H (M1' ++ [cL]) =
              sizeOfBlocks H M1' + blkBytes H cL := by
            rw [sizeOfBlocks_append]
            simp [sizeOfBlocks_cons, sizeOfBlocks_nil]
          split
          · -- right neighbour also FREE: double coalesce
            rename_i hrfree
            rw [hgd] at hrfree
            rw [htake, hgc, hgb, hgd, hdrop2]
            dsimp only
            have hblk3 : h.blocks = M1' ++ [cL, fb, cR] ++ M2' := by
              rw [hbl']; simp
            have hmemD : (x, b) ∈ withAddrs H (M1' ++ [cL, fb, cR] ++ M2') 0 := by
              rw [← hblk3]; exact hmem
            have hout : (x, b) ∉ withAddrs H [cL, fb, cR] (sizeOfBlocks H M1') := by
              intro hcm
              simp only [withAddrs, List.mem_cons, List.not_mem_nil, or_false,
                Prod.mk.injEq] at hcm
              rcases hcm with ⟨hx1, hb1⟩ | ⟨hx2, hb2⟩ | ⟨hx3, hb3⟩
              · rw [hb1, hlfree] at hused
                simp at hused
              · exact hxne (by omega)
              · rw [hb3, hrfree] at hused
                simp at hused
            have hbytes3 : sizeOfBlocks H
                [(⟨false, cL.size + H + fb.size + H + cR.size⟩ : Blk)] =
                sizeOfBlocks H [cL, fb, cR] := by
              simp only [sizeOfBlocks_cons, sizeOfBlocks_nil, blkBytes]
              omega
            have hmem' := withAddrs_surgery hbytes3 hmemD hout
            refine ⟨hmem', fun y hy1 hy2 => ?_⟩
            exact clobberStep_payload (payload_not_headerByte hH hmem hy1 hy2)
              (payload_not_headerByte hH hmem' hy1 hy2)
          · -- right neighbour USED: left coalesce only
            rename_i hrused
            rw [htake, hgc, hgb, hdropn]
            dsimp only
            have hblk2 : h.blocks = M1' ++ [cL, fb] ++ (cR :: M2') := by
              rw [hbl']; simp
            have hmemD : (x, b) ∈ withAddrs H (M1' ++ [cL, fb] ++ (cR :: M2')) 0 := by
              rw [← hblk2]; exact hmem
            have hout : (x, b) ∉ withAddrs H [cL, fb] (sizeOfBlocks H M1') := by
              intro hcm
              simp only [withAddrs, List.mem_cons, List.not_mem_nil, or_false,
                Prod.mk.injEq] at hcm
              rcases hcm with ⟨hx1, hb1⟩ | ⟨hx2, hb2⟩
              · rw [hb1, hlfree] at hused
                simp at hused
              · exact hxne (by omega)
            have hbytes2 : sizeOfBlocks H
                [(⟨false, cL.size + H + fb.size⟩ : Blk)] =
                sizeOfBlocks H [cL, fb] := by
              simp only [sizeOfBlocks_cons, sizeOfBlocks_nil, blkBytes]
              omega
            have hmem' := withAddrs_surgery hbytes2 hmemD hout
            refine ⟨hmem', fun y hy1 hy2 => ?_⟩
            exact clobberStep_payload (payload_not_headerByte hH hmem hy1 hy2)
              (payload_not_headerByte hH hmem' hy1 hy2)
        · -- left neighbour not merged
          rename_i hnleft
          split
          · -- right neighbour FREE
            rename_i hrfree
            rw [hgd] at hrfree
            rw [htakei, hgb, hgd, hdrop2]
            dsimp only
            have hblkR : h.blocks = M1 ++ [fb, cR] ++ M2' := by
              rw [hbl]; simp
            have hmemD : (x, b) ∈ withAddrs H (M1 ++ [fb, cR] ++ M2') 0 := by
              rw [← hblkR]; exact hmem
            have hout : (x, b) ∉ withAddrs H [fb, cR] (sizeOfBlocks H M1) := by
              intro hcm
              simp only [withAddrs, List.mem_cons, List.not_mem_nil, or_false,
                Prod.mk.injEq] at hcm
              rcases hcm with ⟨hx1, hb1⟩ | ⟨hx2, hb2⟩
              · exact hxne hx1
              · rw [hb2, hrfree] at hused
                simp at hused
            have hbytesR : sizeOfBlocks H
                [(⟨false, fb.size + H + cR.size⟩ : Blk)] =
                sizeOfBlocks H [fb, cR] := by
              simp only [sizeOfBlocks_cons, sizeOfBlocks_nil, blkBytes]
              omega
            have hmem' := withAddrs_surgery hbytesR hmemD hout
            refine ⟨hmem', fun y hy1 hy2 => ?_⟩
            exact clobberStep_payload (payload_not_headerByte hH hmem hy1 hy2)
              (payload_not_headerByte hH hmem' hy1 hy2)
          · -- no coalesce at all
            rename_i hrused
            rw [htakei, hgb, hdropn]
            dsimp only
            have hblkS : h.blocks = M1 ++ [fb] ++ (cR :: M2') := by
              rw [hbl]; simp
            have hmemD : (x, b) ∈ withAddrs H (M1 ++ [fb] ++ (cR :: M2')) 0 := by
              rw [← hblkS]; exact hmem
            have hout : (x, b) ∉ withAddrs H [fb] (sizeOfBlocks H M1) := by
              intro hcm
              simp only [withAddrs, List.mem_cons, List.not_mem_nil, or_false,
                Prod.mk.injEq] at hcm
              exact hxne hcm.1
            have hbytesS : sizeOfBlocks H [(⟨false, fb.size⟩ : Blk)] =
                sizeOfBlocks H [fb] := by
              simp [sizeOfBlocks_cons, sizeOfBlocks_nil, blkBytes]
            have hmem' := withAddrs_surgery hbytesS hmemD hout
            refine ⟨hmem', fun y hy1 hy2 => ?_⟩
            exact clobberStep_payload (payload_not_headerByte hH hmem hy1 hy2)
              (payload_not_headerByte hH hmem' hy1 hy2)
      · exact ⟨hmem, fun _ _ _ => rfl⟩



/-- C8: Content preservation — for a USED block of payload size `old` at
payload pointer `p` and a nonzero request `sz`, whenever
`rt_memheap_realloc` returns a pointer `q`, the first
`min old (normSize A sz)` payload bytes at `q` equal the bytes that were at
`p` before the call (this range contains the claim's first `min(old, n)`
bytes, as the first conjunct records).  This covers all paths: in-place grow
and shrink (`q = p`, only headers are rewritten, outside the preserved
prefix), and move (`rt_memcpy` of `min(oldsize, newsize)` bytes into the
fresh block, which the subsequent free of `p` does not touch). -/
theorem c8_content_preservation (A H : Nat) (h : Heap) (L1 L2 : List Blk)
    (old p sz q : Nat)
    (hwf : Wf A H h)
    (hbl : h.blocks = L1 ++ ⟨true, old⟩ :: L2)
    (hp : p = sizeOfBlocks H L1 + H)
    (hsz : sz ≠ 0)
    (hcall : (rt_memheap_realloc A H h p sz).2 = some q) :
    min old sz ≤ min old (normSize A sz) ∧
    ∀ k, k < min old (normSize A sz) →
      (rt_memheap_realloc A H h p sz).1.mem (q + k) = h.mem (p + k) := by
  have hwfc := hwf
  obtain ⟨hA, hH, hAH, hne, hlast, hchain, hacc, hnd, h4a, h4b, hdvd⟩ := hwfc
  have hszle : sz ≤ normSize A sz :=
    le_trans (le_RT_ALIGN sz A hA) (Nat.le_max_left _ _)
  refine ⟨by omega, ?_⟩
  have hidx : idxOfAddr H h.blocks (p - H) = some L1.length := by
    rw [hbl, show p - H = sizeOfBlocks H L1 from by omega]
    exact idxOfAddr_decomp H L1 _ _ hH
  have hgb : getBlk h.blocks L1.length = ⟨true, old⟩ := by
    rw [hbl]; exact getBlk_decomp _ _ _
  have hmemp : (p - H, (⟨true, old⟩ : Blk)) ∈ withAddrs H h.blocks 0 := by
    rw [hbl]
    exact mem_withAddrs.mpr ⟨L1, L2, rfl, by omega⟩
  revert hcall
  cases L2 with
  | nil =>
    have hlenb : h.blocks.length = L1.length + 1 := by
      rw [hbl]; simp
    unfold rt_memheap_realloc
    dsimp only
    rw [if_neg hsz, if_neg (show ¬ p = 0 from by omega),
      if_neg (show ¬ p < H from by omega)]
    split
    · intro hc
      exact absurd (by simpa using hc) (fun hfalse => hfalse)
    · rename_i i heq
      rw [hidx] at heq
      injection heq with hi
      subst hi
      rw [if_neg (fun hcn => by omega : ¬ ((getBlk h.blocks L1.length).used = true ∧
        L1.length + 1 < h.blocks.length))]
      intro hc
      exact absurd (by simpa using hc) (fun hfalse => hfalse)
  | cons nb L2' =>
    have hgd : getBlk h.blocks (L1.length + 1) = nb := by
      rw [hbl]; exact getBlk_decomp2 _ _ _ _
    have hlenb : h.blocks.length = L1.length + 2 + L2'.length := by
      rw [hbl]; simp; omega
    have htake : h.blocks.take L1.length = L1 := by
      rw [hbl]; exact take_decomp _ _ _
    have hdropn : h.blocks.drop (L1.length + 1) = nb :: L2' := by
      rw [hbl]; exact drop_decomp _ _ _
    have hdrop2 : h.blocks.drop (L1.length + 2) = L2' := by
      rw [hbl]; exact drop_decomp2 _ _ _ _
    unfold rt_memheap_realloc
    dsimp only
    rw [if_neg hsz, if_neg (show ¬ p = 0 from by omega),
      if_neg (show ¬ p < H from by omega)]
    split
    · rename_i heq
      rw [hidx] at heq
      cases heq
    · rename_i i heq
      rw [hidx] at heq
      injection heq with hi
      subst hi
      rw [hgb, hgd, htake, hdropn, hdrop2]
      rw [if_pos ⟨rfl, by omega⟩]
      dsimp only
      split
      · -- grow
        rename_i hgrow
        split
        · -- in-place grow
          rename_i hcondg
          intro hc k hk
          have hpq : p = q := by simpa using hc
          subst hpq
          have hkold : k < old := lt_of_lt_of_le hk (Nat.min_le_left _ _)
          have hkn : k < normSize A sz := lt_of_lt_of_le hk (Nat.min_le_right _ _)
          dsimp only
          have hmempost : (p - H, (⟨true, normSize A sz⟩ : Blk)) ∈
              withAddrs H (L1 ++ [⟨true, normSize A sz⟩,
                ⟨false, old + nb.size - normSize A sz⟩] ++ L2') 0 :=
            mem_withAddrs.mpr ⟨L1, ⟨false, old + nb.size - normSize A sz⟩ :: L2',
              by simp, by omega⟩
          have hpre : isHeaderByte H h.blocks (p + k) = false :=
            payload_not_headerByte hH hmemp (by omega)
              (by show p + k < p - H + H + old; omega)
          have hpost := payload_not_headerByte (y := p + k) hH hmempost (by omega)
            (by show p + k < p - H + H + normSize A sz; omega)
          exact clobberStep_payload hpre hpost
        · -- move: allocate, copy, free
          rename_i hcondg
          rcases halloc : rt_memheap_alloc A H h (normSize A sz) with ⟨h1, oq⟩
          cases oq with
          | none =>
            dsimp only
            intro hc
            exact absurd (by simpa using hc) (fun hfalse => hfalse)
          | some q1 =>
            dsimp only
            intro hc k hk
            have hq1 : q1 = q := by simpa using hc
            subst hq1
            have hkold : k < old := lt_of_lt_of_le hk (Nat.min_le_left _ _)
            have hkn : k < normSize A sz := lt_of_lt_of_le hk (Nat.min_le_right _ _)
            obtain ⟨La, s2, Lb, hbl2, hq2, hfit2, hlt2, hcase2⟩ :=
              alloc_some_spec hwf halloc
            have h1eq : (rt_memheap_alloc A H h (normSize A sz)).1 = h1 := by
              rw [halloc]
            have hwf1 : Wf A H h1 := h1eq ▸ wf_alloc A H h (normSize A sz) hwf
            obtain ⟨hmem1, hbytes1⟩ :=
              alloc_used_spec (A := A) (H := H) (normSize A sz) hwf hmemp rfl
            rw [h1eq] at hmem1
            have hn2 : normSize A sz ≤ normSize A (normSize A sz) :=
              le_trans (le_RT_ALIGN _ A hA) (Nat.le_max_left _ _)
            have hbq : ∃ bq : Blk, bq.used = true ∧ normSize A sz ≤ bq.size ∧
                (q1 - H, bq) ∈ withAddrs H h1.blocks 0 := by
              rcases hcase2 with ⟨hsp2, hres2⟩ | ⟨hsp2, hres2⟩
              · refine ⟨⟨true, normSize A (normSize A sz)⟩, rfl,
                  by simpa using hn2, ?_⟩
                rw [hres2]
                dsimp only
                exact mem_withAddrs.mpr
                  ⟨La, ⟨false, s2 - normSize A (normSize A sz) - H⟩ :: Lb,
                    by simp, by omega⟩
              · refine ⟨⟨true, s2⟩, rfl, by simpa using le_trans hn2 hfit2, ?_⟩
                rw [hres2]
                dsimp only
                exact mem_withAddrs.mpr ⟨La, Lb, by simp, by omega⟩
            obtain ⟨bq, hbqu, hbqs, hbqmem⟩ := hbq
            have hfreemem : (q1 - H, (⟨false, s2⟩ : Blk)) ∈
                withAddrs H h.blocks 0 := by
              rw [hbl2]
              exact mem_withAddrs.mpr ⟨La, Lb, rfl, by omega⟩
            have hqp : q1 ≠ p := by
              intro he
              have h1m : (p - H, (⟨false, s2⟩ : Blk)) ∈ withAddrs H h.blocks 0 := by
                rw [← he]
                exact hfreemem
              have := withAddrs_inj hH h1m hmemp
              simp at this
            have hwf2 : Wf A H
                { h1 with mem := copyRange q1 p (min old (normSize A sz)) h1.mem } :=
              hwf1
            have hbqmem2 : (q1 - H, bq) ∈ withAddrs H
                ({ h1 with mem := copyRange q1 p (min old (normSize A sz)) h1.mem } :
                  Heap).blocks 0 := hbqmem
            obtain ⟨-, hbytes3⟩ := free_used_spec (A := A) (H := H) p hwf2
              hbqmem2 hbqu (by omega)
            have e1 : (rt_memheap_free A H
                { h1 with mem := copyRange q1 p (min old (normSize A sz)) h1.mem }
                p).mem (q1 + k) =
                copyRange q1 p (min old (normSize A sz)) h1.mem (q1 + k) :=
              hbytes3 (q1 + k) (by omega) (by omega)
            have e2 : copyRange q1 p (min old (normSize A sz)) h1.mem (q1 + k) =
                h1.mem (p + k) := by
              show (if q1 ≤ q1 + k ∧ q1 + k < q1 + min old (normSize A sz)
                    then h1.mem (p + (q1 + k - q1)) else h1.mem (q1 + k)) =
                h1.mem (p + k)
              rw [if_pos ⟨by omega, by omega⟩]
              congr 1
              omega
            have e3 : h1.mem (p + k) = h.mem (p + k) := by
              have he := hbytes1 (p + k) (by omega)
                (by show p + k < p - H + H + old; omega)
              rw [h1eq] at he
              exact he
            exact e1.trans (e2.trans e3)
      · -- shrink
        rename_i hgrow
        split
        · -- below the split threshold: heap unchanged
          intro hc k hk
          have hpq : p = q := by simpa using hc
          subst hpq
          rfl
        · rename_i hgt2
          split
          · -- split with right coalesce
            rename_i hnbf
            intro hc k hk
            have hpq : p = q := by simpa using hc
            subst hpq
            have hkold : k < old := lt_of_lt_of_le hk (Nat.min_le_left _ _)
            have hkn : k < normSize A sz := lt_of_lt_of_le hk (Nat.min_le_right _ _)
            dsimp only
            have hmempost : (p - H, (⟨true, normSize A sz⟩ : Blk)) ∈
                withAddrs H (L1 ++ [⟨true, normSize A sz⟩,
                  ⟨false, old - normSize A sz + nb.size⟩] ++ L2') 0 :=
              mem_withAddrs.mpr ⟨L1, ⟨false, old - normSize A sz + nb.size⟩ :: L2',
                by simp, by omega⟩
            have hpre : isHeaderByte H h.blocks (p + k) = false :=
              payload_not_headerByte hH hmemp (by omega)
                (by show p + k < p - H + H + old; omega)
            have hpost := payload_not_headerByte (y := p + k) hH hmempost (by omega)
              (by show p + k < p - H + H + normSize A sz; omega)
            exact clobberStep_payload hpre hpost
          · -- split without coalesce
            rename_i hnbu
            intro hc k hk
            have hpq : p = q := by simpa using hc
            subst hpq
            have hkold : k < old := lt_of_lt_of_le hk (Nat.min_le_left _ _)
            have hkn : k < normSize A sz := lt_of_lt_of_le hk (Nat.min_le_right _ _)
            dsimp only
            have hmempost : (p - H, (⟨true, normSize A sz⟩ : Blk)) ∈
                withAddrs H (L1 ++ [⟨true, normSize A sz⟩,
                  ⟨false, old - normSize A sz - H⟩] ++ (nb :: L2')) 0 :=
              mem_withAddrs.mpr
                ⟨L1, ⟨false, old - normSize A sz - H⟩ :: nb :: L2',
                  by simp, by omega⟩
            have hpre : isHeaderByte H h.blocks (p + k) = false :=
              payload_not_headerByte hH hmemp (by omega)
                (by show p + k < p - H + H + old; omega)
            have hpost := payload_not_headerByte (y := p + k) hH hmempost (by omega)
              (by show p + k < p - H + H + normSize A sz; omega)
            exact clobberStep_payload hpre hpost



set_option maxHeartbeats 1000000 in
theorem c8_content_preservation_witness :
    Wf 4 12 (rt_memheap_alloc 4 12 (rt_memheap_init 4 12 1024 (fun _ => 0)) 100).1 ∧
    (rt_memheap_alloc 4 12 (rt_memheap_init 4 12 1024 (fun _ => 0)) 100).1.blocks =
      [] ++ ⟨true, 100⟩ :: [⟨false, 888⟩, ⟨true, 0⟩] ∧
    (12 : Nat) = sizeOfBlocks 12 [] + 12 ∧
    (150 : Nat) ≠ 0 ∧
    (rt_memheap_realloc 4 12
        (rt_memheap_alloc 4 12 (rt_memheap_init 4 12 1024 (fun _ => 0)) 100).1 12 150).2 =
      some 12 ∧
    (min 100 150 ≤ min 100 (normSize 4 150) ∧
     ∀ k, k < min 100 (normSize 4 150) →
       (rt_memheap_realloc 4 12
           (rt_memheap_alloc 4 12 (rt_memheap_init 4 12 1024 (fun _ => 0)) 100).1
           12 150).1.mem (12 + k) =
         (rt_memheap_alloc 4 12 (rt_memheap_init 4 12 1024 (fun _ => 0)) 100).1.mem
           (12 + k)) :=
  ⟨wf_alloc 4 12 (rt_memheap_init 4 12 1024 (fun _ => 0)) 100
      (wf_init 4 12 1024 (fun _ => 0) (by decide) (by decide) (by decide)),
   by decide, by decide, by decide, by decide,
   c8_content_preservation 4 12
     (rt_memheap_alloc 4 12 (rt_memheap_init 4 12 1024 (fun _ => 0)) 100).1
     [] [⟨false, 888⟩, ⟨true, 0⟩] 100 12 150 12
     (wf_alloc 4 12 (rt_memheap_init 4 12 1024 (fun _ => 0)) 100
       (wf_init 4 12 1024 (fun _ => 0) (by decide) (by decide) (by decide)))
     (by decide) (by decide) (by decide) (by decide)⟩


end Memheap
